import Mathlib

set_option autoImplicit false

namespace CargoMergeAssist

/-- Model of the `f64` payload of `toml::Value::Float`, adequate for
the operations the program performs on floats — `PartialEq` comparison
and (abstracted) serialization: `NaN` (all payloads collapsed, as
`PartialEq` treats them alike), the negative zero `-0.0` (kept distinct
from `0.0` because the two are `==`-equal yet serialize differently),
every other finite value as an exact rational, and the two
infinities. -/
inductive F64 : Type where
  | nan
  | negZero
  | finite (q : ℚ)
  | inf (pos : Bool)
  deriving DecidableEq

/-- IEEE-754 `==` on the modelled floats — the float case of the
derived `PartialEq` of `toml::Value`: `NaN` equals nothing, itself
included, and `-0.0 == 0.0`. -/
def f64Beq : F64 → F64 → Bool
  | .nan, _ => false
  | _, .nan => false
  | .negZero, .negZero => true
  | .negZero, .finite q => decide (q = 0)
  | .finite q, .negZero => decide (q = 0)
  | .finite a, .finite b => decide (a = b)
  | .inf a, .inf b => decide (a = b)
  | _, _ => false

/-- Float equality up to IEEE `==`, reflexivity restored: syntactic
equality or `f64Beq`.  Its equivalence classes are `{NaN}`,
`{-0.0, 0.0}`, and singletons — the coarsest float relation a pair of
side-swapped merges is guaranteed to respect. -/
def f64Eqv (a b : F64) : Bool := decide (a = b) || f64Beq a b

/-- Normal form under IEEE `==`: `-0.0` collapses to `0.0`; `NaN`,
being `==`-equal to nothing, has no normal form. -/
def normF : F64 → Option F64
  | .nan => none
  | .negZero => some (.finite 0)
  | .finite q => some (.finite q)
  | .inf b => some (.inf b)

/-- Normal form under `f64Eqv`: `-0.0` collapses to `0.0`, everything
else (NaN included) stands for itself. -/
def canonF : F64 → F64
  | .nan => .nan
  | .negZero => .finite 0
  | .finite q => .finite q
  | .inf b => .inf b

/-- The document tree of `toml::Value`: tables, arrays and the scalar
variants string, integer, float, boolean, datetime.  Tables are
key-sorted association lists (the content of the `BTreeMap`-backed
`toml::map::Map`); float payloads are the `F64` model above, datetime
payloads their textual form.  The program's equality on these values is
`valueEq` below, not Lean equality: the two differ exactly at
floats. -/
inductive TomlValue : Type where
  | str (s : String)
  | int (n : Int)
  | float (x : F64)
  | boolean (b : Bool)
  | datetime (d : String)
  | array (xs : List TomlValue)
  | table (entries : List (String × TomlValue))

mutual

/-- Equality on document values parameterized by the float comparator
`f`: the shape of the derived `PartialEq` of `toml::Value`, comparing
scalars by `==`, arrays elementwise and tables entrywise.
Instantiated with `f64Beq` it is the program's equality, with syntactic
float equality it decides Lean equality, with `f64Eqv` it is equality
up to IEEE `==` at floats. -/
def genEqV (f : F64 → F64 → Bool) : TomlValue → TomlValue → Bool
  | .str a, .str b => a == b
  | .int a, .int b => a == b
  | .float a, .float b => f a b
  | .boolean a, .boolean b => a == b
  | .datetime a, .datetime b => a == b
  | .array xs, .array ys => genEqVList f xs ys
  | .table xs, .table ys => genEqVTable f xs ys
  | _, _ => false

/-- Elementwise, order-sensitive comparison of arrays. -/
def genEqVList (f : F64 → F64 → Bool) :
    List TomlValue → List TomlValue → Bool
  | [], [] => true
  | x :: xs, y :: ys => genEqV f x y && genEqVList f xs ys
  | _, _ => false

/-- Entrywise comparison of table association lists. -/
def genEqVTable (f : F64 → F64 → Bool) :
    List (String × TomlValue) → List (String × TomlValue) → Bool
  | [], [] => true
  | (k1, v1) :: xs, (k2, v2) :: ys =>
    k1 == k2 && genEqV f v1 v2 && genEqVTable f xs ys
  | _, _ => false

end

/-- Syntactic float comparison, giving decidable Lean equality. -/
def f64Syn (a b : F64) : Bool := decide (a = b)

mutual

theorem genEqV_iff_eq (f : F64 → F64 → Bool)
    (hf : ∀ a b, f a b = true ↔ a = b) :
    ∀ a b : TomlValue, genEqV f a b = true ↔ a = b
  | .str a, .str b => by simp [genEqV]
  | .int a, .int b => by simp [genEqV]
  | .float a, .float b => by
    simp only [genEqV, hf a b, TomlValue.float.injEq]
  | .boolean a, .boolean b => by simp [genEqV]
  | .datetime a, .datetime b => by simp [genEqV]
  | .array xs, .array ys => by
    simp only [genEqV, genEqVList_iff_eq f hf xs ys,
      TomlValue.array.injEq]
  | .table xs, .table ys => by
    simp only [genEqV, genEqVTable_iff_eq f hf xs ys,
      TomlValue.table.injEq]
  | .str _, .int _ | .str _, .float _ | .str _, .boolean _
  | .str _, .datetime _ | .str _, .array _ | .str _, .table _
  | .int _, .str _ | .int _, .float _ | .int _, .boolean _
  | .int _, .datetime _ | .int _, .array _ | .int _, .table _
  | .float _, .str _ | .float _, .int _ | .float _, .boolean _
  | .float _, .datetime _ | .float _, .array _ | .float _, .table _
  | .boolean _, .str _ | .boolean _, .int _ | .boolean _, .float _
  | .boolean _, .datetime _ | .boolean _, .array _ | .boolean _, .table _
  | .datetime _, .str _ | .datetime _, .int _ | .datetime _, .float _
  | .datetime _, .boolean _ | .datetime _, .array _ | .datetime _, .table _
  | .array _, .str _ | .array _, .int _ | .array _, .float _
  | .array _, .boolean _ | .array _, .datetime _ | .array _, .table _
  | .table _, .str _ | .table _, .int _ | .table _, .float _
  | .table _, .boolean _ | .table _, .datetime _ | .table _, .array _ => by
    simp [genEqV]

theorem genEqVList_iff_eq (f : F64 → F64 → Bool)
    (hf : ∀ a b, f a b = true ↔ a = b) :
    ∀ xs ys : List TomlValue, genEqVList f xs ys = true ↔ xs = ys
  | [], [] => by simp [genEqVList]
  | x :: xs, y :: ys => by
    simp only [genEqVList, Bool.and_eq_true, genEqV_iff_eq f hf x y,
      genEqVList_iff_eq f hf xs ys, List.cons.injEq]
  | [], _ :: _ => by simp [genEqVList]
  | _ :: _, [] => by simp [genEqVList]

theorem genEqVTable_iff_eq (f : F64 → F64 → Bool)
    (hf : ∀ a b, f a b = true ↔ a = b) :
    ∀ xs ys : List (String × TomlValue),
      genEqVTable f xs ys = true ↔ xs = ys
  | [], [] => by simp [genEqVTable]
  | (k1, v1) :: xs, (k2, v2) :: ys => by
    simp only [genEqVTable, Bool.and_eq_true, genEqV_iff_eq f hf v1 v2,
      genEqVTable_iff_eq f hf xs ys, List.cons.injEq, Prod.mk.injEq,
      beq_iff_eq]
  | [], _ :: _ => by simp [genEqVTable]
  | _ :: _, [] => by simp [genEqVTable]

end

instance : DecidableEq TomlValue := fun a b =>
  decidable_of_iff (genEqV f64Syn a b = true)
    (genEqV_iff_eq f64Syn (fun a b => by
      unfold f64Syn
      exact decide_eq_true_iff) a b)

/-- The derived `PartialEq` of `toml::Value`: structural, with floats
compared by IEEE `==` — irreflexive at `NaN`, and identifying `-0.0`
with `0.0`.  This is the equality every guard of `merge_value`
evaluates. -/
def valueEq : TomlValue → TomlValue → Bool := genEqV f64Beq

/-- `PartialEq` on the `Option<&Value>` triples `merge_value`
receives. -/
def valueEqOpt : Option TomlValue → Option TomlValue → Bool
  | none, none => true
  | some a, some b => valueEq a b
  | _, _ => false

/-- Equality of documents up to IEEE `==` at floats (`f64Eqv`): the
relation side-swapped merge results are guaranteed to satisfy. -/
def eqvV : TomlValue → TomlValue → Bool := genEqV f64Eqv

/-- `eqvV` lifted to optional values. -/
def eqvVOpt : Option TomlValue → Option TomlValue → Bool
  | none, none => true
  | some a, some b => eqvV a b
  | _, _ => false

mutual

/-- Normal form of a document under the program's equality: `-0.0`
collapses to `0.0` everywhere; a document containing any `NaN` has no
normal form, because `NaN` is `==`-equal to nothing. -/
def normV : TomlValue → Option TomlValue
  | .str s => some (.str s)
  | .int n => some (.int n)
  | .float x => (normF x).map .float
  | .boolean b => some (.boolean b)
  | .datetime d => some (.datetime d)
  | .array xs => (normVList xs).map .array
  | .table xs => (normVTable xs).map .table

/-- `normV` over an array's elements. -/
def normVList : List TomlValue → Option (List TomlValue)
  | [] => some []
  | x :: xs =>
    match normV x, normVList xs with
    | some y, some ys => some (y :: ys)
    | _, _ => none

/-- `normV` over a table's entries. -/
def normVTable :
    List (String × TomlValue) → Option (List (String × TomlValue))
  | [] => some []
  | (k, v) :: xs =>
    match normV v, normVTable xs with
    | some w, some ws => some ((k, w) :: ws)
    | _, _ => none

end

mutual

/-- Normal form of a document under `eqvV`: `-0.0` collapses to `0.0`
everywhere, `NaN` stands for itself. -/
def canonV : TomlValue → TomlValue
  | .str s => .str s
  | .int n => .int n
  | .float x => .float (canonF x)
  | .boolean b => .boolean b
  | .datetime d => .datetime d
  | .array xs => .array (canonVList xs)
  | .table xs => .table (canonVTable xs)

/-- `canonV` over an array's elements. -/
def canonVList : List TomlValue → List TomlValue
  | [] => []
  | x :: xs => canonV x :: canonVList xs

/-- `canonV` over a table's entries. -/
def canonVTable :
    List (String × TomlValue) → List (String × TomlValue)
  | [] => []
  | (k, v) :: xs => (k, canonV v) :: canonVTable xs

end

theorem f64Beq_iff_norm (a b : F64) :
    f64Beq a b = true ↔
      ∃ n, normF a = some n ∧ normF b = some n := by
  cases a <;> cases b <;>
    simp [f64Beq, normF, eq_comm]

theorem f64Eqv_iff_canon (a b : F64) :
    f64Eqv a b = true ↔ canonF a = canonF b := by
  cases a <;> cases b <;>
    simp [f64Eqv, f64Beq, canonF, eq_comm]

theorem normF_canonF : ∀ {a n : F64}, normF a = some n → canonF a = n := by
  intro a n h
  cases a with
  | nan => cases h
  | negZero =>
    rw [show normF .negZero = some (.finite 0) from rfl,
      Option.some.injEq] at h
    rw [← h]
    rfl
  | finite q =>
    rw [show normF (.finite q) = some (.finite q) from rfl,
      Option.some.injEq] at h
    rw [← h]
    rfl
  | inf b =>
    rw [show normF (.inf b) = some (.inf b) from rfl,
      Option.some.injEq] at h
    rw [← h]
    rfl

/-- Constructor tag of a document node, used to show that
normalization preserves the node's shape. -/
def headTag : TomlValue → Nat
  | .str _ => 0
  | .int _ => 1
  | .float _ => 2
  | .boolean _ => 3
  | .datetime _ => 4
  | .array _ => 5
  | .table _ => 6

theorem normV_headTag : ∀ {v n : TomlValue},
    normV v = some n → headTag n = headTag v := by
  intro v n h
  cases v <;> simp only [normV, Option.map_eq_some',
    Option.some.injEq] at h
  case str => rw [← h]
  case int => rw [← h]
  case float =>
    rcases h with ⟨y, -, h⟩
    rw [← h]
    rfl
  case boolean => rw [← h]
  case datetime => rw [← h]
  case array =>
    rcases h with ⟨ys, -, h⟩
    rw [← h]
    rfl
  case table =>
    rcases h with ⟨ys, -, h⟩
    rw [← h]
    rfl

theorem normVList_cons {x : TomlValue} {xs m : List TomlValue}
    (h : normVList (x :: xs) = some m) :
    ∃ y ys, m = y :: ys ∧ normV x = some y ∧ normVList xs = some ys := by
  rw [show normVList (x :: xs) = (match normV x, normVList xs with
    | some y, some ys => some (y :: ys)
    | _, _ => none) from rfl] at h
  rcases h1 : normV x with _ | y <;> rw [h1] at h
  · cases h
  · rcases h2 : normVList xs with _ | ys <;> rw [h2] at h
    · cases h
    · rw [Option.some.injEq] at h
      exact ⟨y, ys, h.symm, rfl, rfl⟩

theorem normVTable_cons {k : String} {v : TomlValue}
    {xs : List (String × TomlValue)} {m : List (String × TomlValue)}
    (h : normVTable ((k, v) :: xs) = some m) :
    ∃ w ws, m = (k, w) :: ws ∧ normV v = some w ∧
      normVTable xs = some ws := by
  rw [show normVTable ((k, v) :: xs) = (match normV v, normVTable xs with
    | some w, some ws => some ((k, w) :: ws)
    | _, _ => none) from rfl] at h
  rcases h1 : normV v with _ | w <;> rw [h1] at h
  · cases h
  · rcases h2 : normVTable xs with _ | ws <;> rw [h2] at h
    · cases h
    · rw [Option.some.injEq] at h
      exact ⟨w, ws, h.symm, rfl, rfl⟩

mutual

theorem valueEq_iff_norm : ∀ a b : TomlValue,
    valueEq a b = true ↔ ∃ n, normV a = some n ∧ normV b = some n
  | .str a, .str b => by
    rw [show valueEq (.str a) (.str b) = (a == b) from rfl,
      beq_iff_eq]
    constructor
    · intro h
      subst h
      exact ⟨.str a, rfl, rfl⟩
    · rintro ⟨n, ha, hb⟩
      rw [show normV (.str a) = some (.str a) from rfl,
        Option.some.injEq] at ha
      rw [show normV (.str b) = some (.str b) from rfl,
        Option.some.injEq] at hb
      rw [← hb] at ha
      injection ha
  | .int a, .int b => by
    rw [show valueEq (.int a) (.int b) = (a == b) from rfl,
      beq_iff_eq]
    constructor
    · intro h
      subst h
      exact ⟨.int a, rfl, rfl⟩
    · rintro ⟨n, ha, hb⟩
      rw [show normV (.int a) = some (.int a) from rfl,
        Option.some.injEq] at ha
      rw [show normV (.int b) = some (.int b) from rfl,
        Option.some.injEq] at hb
      rw [← hb] at ha
      injection ha
  | .float a, .float b => by
    rw [show valueEq (.float a) (.float b) = f64Beq a b from rfl,
      f64Beq_iff_norm]
    simp only [normV, Option.map_eq_some']
    constructor
    · rintro ⟨n, ha, hb⟩
      exact ⟨.float n, ⟨n, ha, rfl⟩, ⟨n, hb, rfl⟩⟩
    · rintro ⟨m, ⟨na, ha, rfl⟩, ⟨nb, hb, hnb⟩⟩
      rw [TomlValue.float.injEq] at hnb
      exact ⟨na, ha, hnb ▸ hb⟩
  | .boolean a, .boolean b => by
    rw [show valueEq (.boolean a) (.boolean b) = (a == b) from rfl,
      beq_iff_eq]
    constructor
    · intro h
      subst h
      exact ⟨.boolean a, rfl, rfl⟩
    · rintro ⟨n, ha, hb⟩
      rw [show normV (.boolean a) = some (.boolean a) from rfl,
        Option.some.injEq] at ha
      rw [show normV (.boolean b) = some (.boolean b) from rfl,
        Option.some.injEq] at hb
      rw [← hb] at ha
      injection ha
  | .datetime a, .datetime b => by
    rw [show valueEq (.datetime a) (.datetime b) = (a == b) from rfl,
      beq_iff_eq]
    constructor
    · intro h
      subst h
      exact ⟨.datetime a, rfl, rfl⟩
    · rintro ⟨n, ha, hb⟩
      rw [show normV (.datetime a) = some (.datetime a) from rfl,
        Option.some.injEq] at ha
      rw [show normV (.datetime b) = some (.datetime b) from rfl,
        Option.some.injEq] at hb
      rw [← hb] at ha
      injection ha
  | .array xs, .array ys => by
    rw [show valueEq (.array xs) (.array ys)
        = genEqVList f64Beq xs ys from rfl,
      valueEqList_iff_norm xs ys]
    simp only [normV, Option.map_eq_some']
    constructor
    · rintro ⟨n, ha, hb⟩
      exact ⟨.array n, ⟨n, ha, rfl⟩, ⟨n, hb, rfl⟩⟩
    · rintro ⟨m, ⟨na, ha, rfl⟩, ⟨nb, hb, hnb⟩⟩
      rw [TomlValue.array.injEq] at hnb
      exact ⟨na, ha, hnb ▸ hb⟩
  | .table xs, .table ys => by
    rw [show valueEq (.table xs) (.table ys)
        = genEqVTable f64Beq xs ys from rfl,
      valueEqTable_iff_norm xs ys]
    simp only [normV, Option.map_eq_some']
    constructor
    · rintro ⟨n, ha, hb⟩
      exact ⟨.table n, ⟨n, ha, rfl⟩, ⟨n, hb, rfl⟩⟩
    · rintro ⟨m, ⟨na, ha, rfl⟩, ⟨nb, hb, hnb⟩⟩
      rw [TomlValue.table.injEq] at hnb
      exact ⟨na, ha, hnb ▸ hb⟩
  | .str _, .int _ | .str _, .float _ | .str _, .boolean _
  | .str _, .datetime _ | .str _, .array _ | .str _, .table _
  | .int _, .str _ | .int _, .float _ | .int _, .boolean _
  | .int _, .datetime _ | .int _, .array _ | .int _, .table _
  | .float _, .str _ | .float _, .int _ | .float _, .boolean _
  | .float _, .datetime _ | .float _, .array _ | .float _, .table _
  | .boolean _, .str _ | .boolean _, .int _ | .boolean _, .float _
  | .boolean _, .datetime _ | .boolean _, .array _ | .boolean _, .table _
  | .datetime _, .str _ | .datetime _, .int _ | .datetime _, .float _
  | .datetime _, .boolean _ | .datetime _, .array _ | .datetime _, .table _
  | .array _, .str _ | .array _, .int _ | .array _, .float _
  | .array _, .boolean _ | .array _, .datetime _ | .array _, .table _
  | .table _, .str _ | .table _, .int _ | .table _, .float _
  | .table _, .boolean _ | .table _, .datetime _ | .table _, .array _ => by
    constructor
    · intro h
      exact absurd h (by simp [valueEq, genEqV])
    · rintro ⟨n, ha, hb⟩
      have t1 := normV_headTag ha
      have t2 := normV_headTag hb
      rw [t1] at t2
      simp [headTag] at t2

theorem valueEqList_iff_norm : ∀ xs ys : List TomlValue,
    genEqVList f64Beq xs ys = true ↔
      ∃ n, normVList xs = some n ∧ normVList ys = some n
  | [], [] => by simp [genEqVList, normVList]
  | x :: xs, y :: ys => by
    rw [show genEqVList f64Beq (x :: xs) (y :: ys)
        = (genEqV f64Beq x y && genEqVList f64Beq xs ys) from rfl,
      Bool.and_eq_true,
      show genEqV f64Beq x y = valueEq x y from rfl,
      valueEq_iff_norm x y, valueEqList_iff_norm xs ys]
    constructor
    · rintro ⟨⟨n, hx, hy⟩, ⟨ns, hxs, hys⟩⟩
      refine ⟨n :: ns, ?_, ?_⟩
      · rw [show normVList (x :: xs) = (match normV x, normVList xs with
          | some y, some ys => some (y :: ys)
          | _, _ => none) from rfl, hx, hxs]
      · rw [show normVList (y :: ys) = (match normV y, normVList ys with
          | some z, some zs => some (z :: zs)
          | _, _ => none) from rfl, hy, hys]
    · rintro ⟨m, hx, hy⟩
      rcases normVList_cons hx with ⟨nx, nxs, rfl, hnx, hnxs⟩
      rcases normVList_cons hy with ⟨ny, nys, heq, hny, hnys⟩
      rw [List.cons.injEq] at heq
      refine ⟨⟨nx, hnx, ?_⟩, ⟨nxs, hnxs, ?_⟩⟩
      · rw [heq.1]; exact hny
      · rw [heq.2]; exact hnys
  | [], y :: ys => by
    constructor
    · intro h
      exact absurd h (by simp [genEqVList])
    · rintro ⟨n, ha, hb⟩
      rw [show normVList ([] : List TomlValue) = some [] from rfl,
        Option.some.injEq] at ha
      rcases normVList_cons hb with ⟨ny, nys, heq, -, -⟩
      rw [← ha] at heq
      cases heq
  | x :: xs, [] => by
    constructor
    · intro h
      exact absurd h (by simp [genEqVList])
    · rintro ⟨n, ha, hb⟩
      rw [show normVList ([] : List TomlValue) = some [] from rfl,
        Option.some.injEq] at hb
      rcases normVList_cons ha with ⟨ny, nys, heq, -, -⟩
      rw [← hb] at heq
      cases heq

theorem valueEqTable_iff_norm : ∀ xs ys : List (String × TomlValue),
    genEqVTable f64Beq xs ys = true ↔
      ∃ n, normVTable xs = some n ∧ normVTable ys = some n
  | [], [] => by simp [genEqVTable, normVTable]
  | (k1, v1) :: xs, (k2, v2) :: ys => by
    rw [show genEqVTable f64Beq ((k1, v1) :: xs) ((k2, v2) :: ys)
        = ((k1 == k2) && genEqV f64Beq v1 v2
            && genEqVTable f64Beq xs ys) from rfl,
      Bool.and_eq_true, Bool.and_eq_true,
      show genEqV f64Beq v1 v2 = valueEq v1 v2 from rfl,
      valueEq_iff_norm v1 v2, valueEqTable_iff_norm xs ys, beq_iff_eq]
    constructor
    · rintro ⟨⟨rfl, ⟨n, hx, hy⟩⟩, ⟨ns, hxs, hys⟩⟩
      refine ⟨(k1, n) :: ns, ?_, ?_⟩
      · rw [show normVTable ((k1, v1) :: xs)
            = (match normV v1, normVTable xs with
          | some w, some ws => some ((k1, w) :: ws)
          | _, _ => none) from rfl, hx, hxs]
      · rw [show normVTable ((k1, v2) :: ys)
            = (match normV v2, normVTable ys with
          | some w, some ws => some ((k1, w) :: ws)
          | _, _ => none) from rfl, hy, hys]
    · rintro ⟨m, hx, hy⟩
      rcases normVTable_cons hx with ⟨nx, nxs, rfl, hnx, hnxs⟩
      rcases normVTable_cons hy with ⟨ny, nys, heq, hny, hnys⟩
      rw [List.cons.injEq, Prod.mk.injEq] at heq
      refine ⟨⟨heq.1.1, ⟨nx, hnx, ?_⟩⟩, ⟨nxs, hnxs, ?_⟩⟩
      · rw [heq.1.2]; exact hny
      · rw [heq.2]; exact hnys
  | [], y :: ys => by
    constructor
    · intro h
      exact absurd h (by simp [genEqVTable])
    · rintro ⟨n, ha, hb⟩
      rw [show normVTable ([] : List (String × TomlValue)) = some []
        from rfl, Option.some.injEq] at ha
      rcases y with ⟨ky, vy⟩
      rcases normVTable_cons hb with ⟨ny, nys, heq, -, -⟩
      rw [← ha] at heq
      cases heq
  | x :: xs, [] => by
    constructor
    · intro h
      exact absurd h (by simp [genEqVTable])
    · rintro ⟨n, ha, hb⟩
      rw [show normVTable ([] : List (String × TomlValue)) = some []
        from rfl, Option.some.injEq] at hb
      rcases x with ⟨kx, vx⟩
      rcases normVTable_cons ha with ⟨ny, nys, heq, -, -⟩
      rw [← hb] at heq
      cases heq

end

mutual

theorem eqvV_iff_canon : ∀ a b : TomlValue,
    eqvV a b = true ↔ canonV a = canonV b
  | .str a, .str b => by
    rw [show eqvV (.str a) (.str b) = (a == b) from rfl, beq_iff_eq,
      show canonV (.str a) = .str a from rfl,
      show canonV (.str b) = .str b from rfl, TomlValue.str.injEq]
  | .int a, .int b => by
    rw [show eqvV (.int a) (.int b) = (a == b) from rfl, beq_iff_eq,
      show canonV (.int a) = .int a from rfl,
      show canonV (.int b) = .int b from rfl, TomlValue.int.injEq]
  | .float a, .float b => by
    rw [show eqvV (.float a) (.float b) = f64Eqv a b from rfl,
      f64Eqv_iff_canon,
      show canonV (.float a) = .float (canonF a) from rfl,
      show canonV (.float b) = .float (canonF b) from rfl,
      TomlValue.float.injEq]
  | .boolean a, .boolean b => by
    rw [show eqvV (.boolean a) (.boolean b) = (a == b) from rfl,
      beq_iff_eq, show canonV (.boolean a) = .boolean a from rfl,
      show canonV (.boolean b) = .boolean b from rfl,
      TomlValue.boolean.injEq]
  | .datetime a, .datetime b => by
    rw [show eqvV (.datetime a) (.datetime b) = (a == b) from rfl,
      beq_iff_eq, show canonV (.datetime a) = .datetime a from rfl,
      show canonV (.datetime b) = .datetime b from rfl,
      TomlValue.datetime.injEq]
  | .array xs, .array ys => by
    rw [show eqvV (.array xs) (.array ys)
        = genEqVList f64Eqv xs ys from rfl,
      eqvVList_iff_canon xs ys,
      show canonV (.array xs) = .array (canonVList xs) from rfl,
      show canonV (.array ys) = .array (canonVList ys) from rfl,
      TomlValue.array.injEq]
  | .table xs, .table ys => by
    rw [show eqvV (.table xs) (.table ys)
        = genEqVTable f64Eqv xs ys from rfl,
      eqvVTable_iff_canon xs ys,
      show canonV (.table xs) = .table (canonVTable xs) from rfl,
      show canonV (.table ys) = .table (canonVTable ys) from rfl,
      TomlValue.table.injEq]
  | .str _, .int _ | .str _, .float _ | .str _, .boolean _
  | .str _, .datetime _ | .str _, .array _ | .str _, .table _
  | .int _, .str _ | .int _, .float _ | .int _, .boolean _
  | .int _, .datetime _ | .int _, .array _ | .int _, .table _
  | .float _, .str _ | .float _, .int _ | .float _, .boolean _
  | .float _, .datetime _ | .float _, .array _ | .float _, .table _
  | .boolean _, .str _ | .boolean _, .int _ | .boolean _, .float _
  | .boolean _, .datetime _ | .boolean _, .array _ | .boolean _, .table _
  | .datetime _, .str _ | .datetime _, .int _ | .datetime _, .float _
  | .datetime _, .boolean _ | .datetime _, .array _ | .datetime _, .table _
  | .array _, .str _ | .array _, .int _ | .array _, .float _
  | .array _, .boolean _ | .array _, .datetime _ | .array _, .table _
  | .table _, .str _ | .table _, .int _ | .table _, .float _
  | .table _, .boolean _ | .table _, .datetime _ | .table _, .array _ => by
    constructor
    · intro h
      exact absurd h (by simp [eqvV, genEqV])
    · intro h
      exact absurd h (by simp [canonV])

theorem eqvVList_iff_canon : ∀ xs ys : List TomlValue,
    genEqVList f64Eqv xs ys = true ↔ canonVList xs = canonVList ys
  | [], [] => by simp [genEqVList, canonVList]
  | x :: xs, y :: ys => by
    rw [show genEqVList f64Eqv (x :: xs) (y :: ys)
        = (genEqV f64Eqv x y && genEqVList f64Eqv xs ys) from rfl,
      Bool.and_eq_true, show genEqV f64Eqv x y = eqvV x y from rfl,
      eqvV_iff_canon x y, eqvVList_iff_canon xs ys,
      show canonVList (x :: xs) = canonV x :: canonVList xs from rfl,
      show canonVList (y :: ys) = canonV y :: canonVList ys from rfl,
      List.cons.injEq]
  | [], y :: ys => by
    constructor
    · intro h
      exact absurd h (by simp [genEqVList])
    · intro h
      rw [show canonVList ([] : List TomlValue) = [] from rfl,
        show canonVList (y :: ys) = canonV y :: canonVList ys
          from rfl] at h
      cases h
  | x :: xs, [] => by
    constructor
    · intro h
      exact absurd h (by simp [genEqVList])
    · intro h
      rw [show canonVList ([] : List TomlValue) = [] from rfl,
        show canonVList (x :: xs) = canonV x :: canonVList xs
          from rfl] at h
      cases h

theorem eqvVTable_iff_canon : ∀ xs ys : List (String × TomlValue),
    genEqVTable f64Eqv xs ys = true ↔ canonVTable xs = canonVTable ys
  | [], [] => by simp [genEqVTable, canonVTable]
  | (k1, v1) :: xs, (k2, v2) :: ys => by
    rw [show genEqVTable f64Eqv ((k1, v1) :: xs) ((k2, v2) :: ys)
        = ((k1 == k2) && genEqV f64Eqv v1 v2
            && genEqVTable f64Eqv xs ys) from rfl,
      Bool.and_eq_true, Bool.and_eq_true,
      show genEqV f64Eqv v1 v2 = eqvV v1 v2 from rfl,
      eqvV_iff_canon v1 v2, eqvVTable_iff_canon xs ys, beq_iff_eq,
      show canonVTable ((k1, v1) :: xs)
        = (k1, canonV v1) :: canonVTable xs from rfl,
      show canonVTable ((k2, v2) :: ys)
        = (k2, canonV v2) :: canonVTable ys from rfl,
      List.cons.injEq, Prod.mk.injEq]
  | [], y :: ys => by
    constructor
    · intro h
      exact absurd h (by simp [genEqVTable])
    · intro h
      rcases y with ⟨k, v⟩
      rw [show canonVTable ([] : List (String × TomlValue)) = []
          from rfl,
        show canonVTable ((k, v) :: ys) = (k, canonV v) :: canonVTable ys
          from rfl] at h
      cases h
  | x :: xs, [] => by
    constructor
    · intro h
      exact absurd h (by simp [genEqVTable])
    · intro h
      rcases x with ⟨k, v⟩
      rw [show canonVTable ([] : List (String × TomlValue)) = []
          from rfl,
        show canonVTable ((k, v) :: xs) = (k, canonV v) :: canonVTable xs
          from rfl] at h
      cases h

end

mutual

theorem normV_canonV : ∀ {v n : TomlValue}, normV v = some n →
    canonV v = n
  | .str s, n => by
    intro h
    rw [show normV (.str s) = some (.str s) from rfl,
      Option.some.injEq] at h
    exact h
  | .int i, n => by
    intro h
    rw [show normV (.int i) = some (.int i) from rfl,
      Option.some.injEq] at h
    exact h
  | .float x, n => by
    intro h
    rw [show normV (.float x) = (normF x).map .float from rfl,
      Option.map_eq_some'] at h
    rcases h with ⟨m, hm, hn⟩
    rw [show canonV (.float x) = .float (canonF x) from rfl,
      normF_canonF hm]
    exact hn
  | .boolean b, n => by
    intro h
    rw [show normV (.boolean b) = some (.boolean b) from rfl,
      Option.some.injEq] at h
    exact h
  | .datetime d, n => by
    intro h
    rw [show normV (.datetime d) = some (.datetime d) from rfl,
      Option.some.injEq] at h
    exact h
  | .array xs, n => by
    intro h
    rw [show normV (.array xs) = (normVList xs).map .array from rfl,
      Option.map_eq_some'] at h
    rcases h with ⟨m, hm, hn⟩
    rw [show canonV (.array xs) = .array (canonVList xs) from rfl,
      normVList_canonVList hm]
    exact hn
  | .table xs, n => by
    intro h
    rw [show normV (.table xs) = (normVTable xs).map .table from rfl,
      Option.map_eq_some'] at h
    rcases h with ⟨m, hm, hn⟩
    rw [show canonV (.table xs) = .table (canonVTable xs) from rfl,
      normVTable_canonVTable hm]
    exact hn

theorem normVList_canonVList : ∀ {xs m : List TomlValue},
    normVList xs = some m → canonVList xs = m
  | [], m => by
    intro h
    rw [show normVList ([] : List TomlValue) = some [] from rfl,
      Option.some.injEq] at h
    exact h
  | x :: xs, m => by
    intro h
    rcases normVList_cons h with ⟨y, ys, rfl, h1, h2⟩
    rw [show canonVList (x :: xs) = canonV x :: canonVList xs from rfl,
      normV_canonV h1, normVList_canonVList h2]

theorem normVTable_canonVTable : ∀ {xs m : List (String × TomlValue)},
    normVTable xs = some m → canonVTable xs = m
  | [], m => by
    intro h
    rw [show normVTable ([] : List (String × TomlValue)) = some []
      from rfl, Option.some.injEq] at h
    exact h
  | (k, v) :: xs, m => by
    intro h
    rcases normVTable_cons h with ⟨w, ws, rfl, h1, h2⟩
    rw [show canonVTable ((k, v) :: xs) = (k, canonV v) :: canonVTable xs
      from rfl, normV_canonV h1, normVTable_canonVTable h2]

end

theorem valueEq_symm (a b : TomlValue) : valueEq a b = valueEq b a := by
  rcases ha : valueEq a b with _ | _ <;>
    rcases hb : valueEq b a with _ | _
  · rfl
  · rcases (valueEq_iff_norm b a).mp hb with ⟨n, h1, h2⟩
    have hc := (valueEq_iff_norm a b).mpr ⟨n, h2, h1⟩
    rw [hc] at ha
    cases ha
  · rcases (valueEq_iff_norm a b).mp ha with ⟨n, h1, h2⟩
    have hc := (valueEq_iff_norm b a).mpr ⟨n, h2, h1⟩
    rw [hc] at hb
    cases hb
  · rfl

theorem valueEq_trans {a b c : TomlValue} (h1 : valueEq a b = true)
    (h2 : valueEq b c = true) : valueEq a c = true := by
  rw [valueEq_iff_norm] at h1 h2 ⊢
  rcases h1 with ⟨n, ha, hb⟩
  rcases h2 with ⟨m, hb', hc⟩
  rw [hb, Option.some.injEq] at hb'
  refine ⟨n, ha, ?_⟩
  rw [hb']
  exact hc

theorem valueEq_to_eqv {a b : TomlValue} (h : valueEq a b = true) :
    eqvV a b = true := by
  rw [valueEq_iff_norm] at h
  rcases h with ⟨n, ha, hb⟩
  rw [eqvV_iff_canon, normV_canonV ha, normV_canonV hb]

theorem eqvV_refl (a : TomlValue) : eqvV a a = true := by
  rw [eqvV_iff_canon]

theorem valueEqOpt_symm (a b : Option TomlValue) :
    valueEqOpt a b = valueEqOpt b a := by
  rcases a with _ | a <;> rcases b with _ | b
  · rfl
  · rfl
  · rfl
  · exact valueEq_symm a b

theorem valueEqOpt_trans {a b c : Option TomlValue}
    (h1 : valueEqOpt a b = true) (h2 : valueEqOpt b c = true) :
    valueEqOpt a c = true := by
  rcases a with _ | a <;> rcases b with _ | b
  · exact h2
  · exact absurd h1 (by simp [valueEqOpt])
  · exact absurd h1 (by simp [valueEqOpt])
  · rcases c with _ | c
    · exact absurd h2 (by simp [valueEqOpt])
    · exact valueEq_trans h1 h2

theorem valueEqOpt_to_eqv {a b : Option TomlValue}
    (h : valueEqOpt a b = true) : eqvVOpt a b = true := by
  rcases a with _ | a <;> rcases b with _ | b
  · rfl
  · cases h
  · cases h
  · exact valueEq_to_eqv h

theorem eqvVOpt_refl (a : Option TomlValue) : eqvVOpt a a = true := by
  rcases a with _ | a
  · rfl
  · exact eqvV_refl a

/-- A document is NaN-free exactly when it has a normal form under the
program's equality — equivalently, when it equals itself under the
derived `PartialEq`. -/
def nanFree (v : TomlValue) : Bool := (normV v).isSome

theorem valueEq_refl_of_nanFree {v : TomlValue}
    (h : nanFree v = true) : valueEq v v = true := by
  unfold nanFree at h
  rw [Option.isSome_iff_exists] at h
  rcases h with ⟨n, hn⟩
  rw [valueEq_iff_norm]
  exact ⟨n, hn, hn⟩

theorem canonVTable_append (xs ys : List (String × TomlValue)) :
    canonVTable (xs ++ ys) = canonVTable xs ++ canonVTable ys := by
  induction xs with
  | nil => rfl
  | cons x xs ih =>
    rcases x with ⟨k, v⟩
    rw [List.cons_append,
      show canonVTable ((k, v) :: (xs ++ ys))
        = (k, canonV v) :: canonVTable (xs ++ ys) from rfl, ih]
    rfl

/-- `MergeConflict` of `src/merge.rs`: a dotted path plus the three
optional values at that path. -/
structure MergeConflict : Type where
  path : String
  base : Option TomlValue
  ours : Option TomlValue
  theirs : Option TomlValue
  deriving DecidableEq

/-- `join_path` of `src/merge.rs`. -/
def join_path (base key : String) : String :=
  if base.isEmpty then key else base ++ "." ++ key

/-- Lookup in a table, `toml::map::Map::get`. -/
def tableGet (entries : List (String × TomlValue)) (k : String) :
    Option TomlValue :=
  (entries.find? (fun e => e.1 = k)).map (·.2)

/-- `Value::as_table` of the `toml` crate. -/
def asTable : TomlValue → Option (List (String × TomlValue))
  | .table m => some m
  | _ => none

/-- The base-side child at key `k`:
`base.and_then(|v| v.as_table()).and_then(|t| t.get(&k))`. -/
def baseChild (base : Option TomlValue) (k : String) : Option TomlValue :=
  (base.bind asTable).bind (fun t => tableGet t k)

/-- Rust's `Ord` on `String`: lexicographic comparison, here on the
character lists underlying the two strings (UTF-8 byte order and
code-point order agree). -/
def strLtB (a b : String) : Bool :=
  decide (a.data < b.data)

theorem strLtB_iff (a b : String) : strLtB a b = true ↔ a < b := by
  unfold strLtB
  rw [decide_eq_true_iff, String.lt_iff_toList_lt]
  exact Iff.rfl

/-- Insert a key into an ascending duplicate-free list, keeping it
ascending and duplicate-free — one `BTreeSet` insertion. -/
def insertSorted (k : String) : List String → List String
  | [] => [k]
  | x :: xs =>
    if strLtB k x then k :: x :: xs
    else if k = x then x :: xs
    else x :: insertSorted k xs

/-- The ascending iteration order of a `BTreeSet<String>` holding the
given keys. -/
def sortedKeys (ks : List String) : List String :=
  ks.foldr insertSorted []

/-- The keys the base side contributes to the union: those of `base`
when it is present and a table, none otherwise
(`if let Some(Value::Table(base_table)) = base`). -/
def baseKeysIfTable (base : Option TomlValue) : List String :=
  match base.bind asTable with
  | some bt => bt.map Prod.fst
  | none => []

/-- The key set `keys(ours) ∪ keys(theirs) ∪ keys(base if table)` that
the table case of `merge_value` iterates, in `BTreeSet` ascending
order. -/
def tableUnionKeys (base : Option TomlValue)
    (ot tt : List (String × TomlValue)) : List String :=
  sortedKeys (ot.map Prod.fst ++ tt.map Prod.fst ++ baseKeysIfTable base)

theorem sizeOf_tableGet_lt {entries : List (String × TomlValue)}
    {k : String} {v : TomlValue} (h : tableGet entries k = some v) :
    sizeOf v < sizeOf entries := by
  unfold tableGet at h
  rcases Option.map_eq_some'.mp h with ⟨e, he, hv⟩
  have hmem := List.mem_of_find?_eq_some he
  have h1 : sizeOf e < sizeOf entries := List.sizeOf_lt_of_mem hmem
  subst hv
  rcases e with ⟨a, b⟩
  simp only [Prod.mk.sizeOf_spec] at h1
  show sizeOf b < sizeOf entries
  omega

theorem sizeOf_tableGet_opt (entries : List (String × TomlValue))
    (k : String) : sizeOf (tableGet entries k) < 1 + sizeOf entries := by
  rcases h : tableGet entries k with _ | v
  · have : 0 < sizeOf entries := by cases entries <;> simp
    simp only [Option.none.sizeOf_spec]
    omega
  · have := sizeOf_tableGet_lt h
    simp only [Option.some.sizeOf_spec]
    omega

mutual

/-- `merge_value` of `src/merge.rs`: the recursive three-way merge at a
single position.  The decision ladder is: agreement short-circuit, ours
unchanged from base, theirs unchanged from base, key-wise table
recursion, otherwise conflict.  Every guard compares by `valueEqOpt`,
the derived `PartialEq` of `Option<&Value>` — IEEE `==` at floats, so
irreflexive on documents containing `NaN` and blind to the `-0.0`
versus `0.0` distinction. -/
def merge_value (path : String) (base ours theirs : Option TomlValue) :
    Except MergeConflict (Option TomlValue) :=
  if valueEqOpt ours theirs then .ok ours
  else if valueEqOpt ours base then .ok theirs
  else if valueEqOpt theirs base then .ok ours
  else
    match ours, theirs with
    | some (.table ours_table), some (.table theirs_table) =>
      match merge_table path base ours_table theirs_table
          (tableUnionKeys base ours_table theirs_table) [] with
      | .error c => .error c
      | .ok out => .ok (some (.table out))
    | _, _ => .error ⟨path, base, ours, theirs⟩
  termination_by (sizeOf ours, 1, 0)
  decreasing_by
    apply Prod.Lex.left
    simp only [Option.some.sizeOf_spec, TomlValue.table.sizeOf_spec]
    omega

/-- The key loop of `merge_value`'s table case: for each key in
ascending order, merge the three children; a conflict propagates
immediately, an absent result omits the key, a present result is
appended (a `BTreeMap` insert in ascending key order). -/
def merge_table (path : String) (base : Option TomlValue)
    (ours_table theirs_table : List (String × TomlValue))
    (ks : List String) (acc : List (String × TomlValue)) :
    Except MergeConflict (List (String × TomlValue)) :=
  match ks with
  | [] => .ok acc
  | k :: rest =>
    match merge_value (join_path path k) (baseChild base k)
        (tableGet ours_table k) (tableGet theirs_table k) with
    | .error c => .error c
    | .ok none => merge_table path base ours_table theirs_table rest acc
    | .ok (some v) =>
      merge_table path base ours_table theirs_table rest (acc ++ [(k, v)])
  termination_by (1 + sizeOf ours_table, 0, ks.length)
  decreasing_by
    · apply Prod.Lex.left
      apply sizeOf_tableGet_opt
    · apply Prod.Lex.right
      apply Prod.Lex.right
      simp only [List.length_cons]
      omega
    · apply Prod.Lex.right
      apply Prod.Lex.right
      simp only [List.length_cons]
      omega

end

instance {ε α : Type} [DecidableEq ε] [DecidableEq α] :
    DecidableEq (Except ε α) := fun a b =>
  match a, b with
  | .error e1, .error e2 =>
    if h : e1 = e2 then .isTrue (by rw [h]) else
      .isFalse (by intro hc; cases hc; exact h rfl)
  | .ok v1, .ok v2 =>
    if h : v1 = v2 then .isTrue (by rw [h]) else
      .isFalse (by intro hc; cases hc; exact h rfl)
  | .error _, .ok _ => .isFalse (by intro hc; cases hc)
  | .ok _, .error _ => .isFalse (by intro hc; cases hc)

/-- `render_value` of `src/merge.rs`: a present value renders through
the TOML `Display` form (abstracted as `display`), an absent one as the
deletion marker. -/
def render_value (display : TomlValue → String) :
    Option TomlValue → String
  | some v => display v
  | none => "<deleted>"

/-- The external TOML codec (`toml::from_str`,
`toml::to_string_pretty`, and the `Display` of `toml::Value`), which is
library code outside this repository.  Text-level theorems quantify
over it. -/
structure TomlCodec : Type where
  parse : String → Option TomlValue
  serializePretty : TomlValue → Option String
  display : TomlValue → String

/-- Rust's `output.ends_with('\n')`: the last character is a
newline. -/
def endsWithNewline (s : String) : Bool :=
  s.data.getLast? = some '\n'

/-- The trailing-newline padding of `merge_manifest_texts`:
`if !output.ends_with('\n') { output.push('\n') }`. -/
def ensureTrailingNewline (s : String) : String :=
  if endsWithNewline s then s else s.push '\n'

/-- The number of newline characters at the head of a character
list. -/
def countLeadingNewlines : List Char → Nat
  | [] => 0
  | c :: cs => if c = '\n' then countLeadingNewlines cs + 1 else 0

/-- The number of newline characters a string ends with. -/
def trailingNewlineCount (s : String) : Nat :=
  countLeadingNewlines s.data.reverse

/-- The conflict the `.expect("root merge always returns a document")`
panic is modelled by; claim C10 proves the branch returning it
unreachable. -/
def rootPanicConflict : MergeConflict :=
  ⟨"<panic:root merge always returns a document>", none, none, none⟩

/-- The tail of `merge_manifest_texts` after the root merge produced
`r`: the `.expect` (modelled by `rootPanicConflict`), then
`toml::to_string_pretty` with its `<serialize>` sentinel, then the
newline padding. -/
def serializeStage (c : TomlCodec) (r : Option TomlValue) :
    Except MergeConflict String :=
  match r with
  | none => .error rootPanicConflict
  | some merged =>
    match c.serializePretty merged with
    | none => .error ⟨"<serialize>", none, none, none⟩
    | some out => .ok (ensureTrailingNewline out)

/-- The propagation of a root-merge conflict (`?` in the Rust source)
followed by `serializeStage`. -/
def mergeStage (c : TomlCodec)
    (r : Except MergeConflict (Option TomlValue)) :
    Except MergeConflict String :=
  match r with
  | .error cf => .error cf
  | .ok v => serializeStage c v

/-- `merge_manifest_texts` of `src/merge.rs`: parse the three texts
(parse failures short-circuit with sentinel-path conflicts), merge the
three roots, serialize, and pad to a trailing newline. -/
def merge_manifest_texts (c : TomlCodec)
    (base_text ours_text theirs_text : String) :
    Except MergeConflict String :=
  match c.parse base_text with
  | none => .error ⟨"<parse:base>", none, none, none⟩
  | some base =>
    match c.parse ours_text with
    | none => .error ⟨"<parse:ours>", none, none, none⟩
    | some ours =>
      match c.parse theirs_text with
      | none => .error ⟨"<parse:theirs>", none, none, none⟩
      | some theirs =>
        mergeStage c (merge_value "" (some base) (some ours) (some theirs))

/-- Shape test used to phrase rule 3/4: are both sides tables? -/
def bothTables : Option TomlValue → Option TomlValue → Bool
  | some (.table _), some (.table _) => true
  | _, _ => false

/-- The recursive call the table case of `merge_value` makes for key
`k`: `merge_value(&key_path, base_child, ours_child, theirs_child)`
with `key_path = join_path(path, k)`. -/
def childMergeAt (path : String) (base : Option TomlValue)
    (ot tt : List (String × TomlValue)) (k : String) :
    Except MergeConflict (Option TomlValue) :=
  merge_value (join_path path k) (baseChild base k) (tableGet ot k)
    (tableGet tt k)

/-- The entry key `k` contributes to the output table: a present merge
result is kept under `k`, an absent one is omitted, a conflict
contributes nothing (it propagates instead). -/
def childKeepAt (path : String) (base : Option TomlValue)
    (ot tt : List (String × TomlValue)) (k : String) :
    Option (String × TomlValue) :=
  match childMergeAt path base ot tt k with
  | .ok (some v) => some (k, v)
  | _ => none

/-- Swap the ours/theirs slots of a conflict record. -/
def swapConflict (c : MergeConflict) : MergeConflict :=
  ⟨c.path, c.base, c.theirs, c.ours⟩

/-- The relation a merge bears to the merge with the two sides
exchanged: both fail, with the ours/theirs slots of the one conflict
exchanged and path and base kept, or both succeed, with results equal
up to IEEE `==` at floats (`-0.0` versus `0.0` may differ; byte
equality does not hold in general, see the C7 counterexample). -/
def SwapRel :
    Except MergeConflict (Option TomlValue) →
      Except MergeConflict (Option TomlValue) → Prop
  | .ok v1, .ok v2 => eqvVOpt v1 v2 = true
  | .error c1, .error c2 => c2 = swapConflict c1
  | _, _ => False

/-- `SwapRel` at the level of the table-merging loop. -/
def SwapRelTable :
    Except MergeConflict (List (String × TomlValue)) →
      Except MergeConflict (List (String × TomlValue)) → Prop
  | .ok out1, .ok out2 => genEqVTable f64Eqv out1 out2 = true
  | .error c1, .error c2 => c2 = swapConflict c1
  | _, _ => False

/-- Spec-side description of the reported conflict (claim C4): either
rule 4 fires right here (neither agreement, nor one side unchanged from
base — all under the program's `PartialEq` — nor two tables), or both
sides are tables, the key union is
iterated in strictly ascending (lexicographic) order, every key before
`k` merges without conflict, and the conflict is the one reported under
`k` — i.e. the first recursive conflict in iteration order, at the
shallowest position where rule 4 fires. -/
inductive FirstConflictAt :
    String → Option TomlValue → Option TomlValue → Option TomlValue →
      MergeConflict → Prop where
  | here {path : String} {base ours theirs : Option TomlValue} :
      valueEqOpt ours theirs = false → valueEqOpt ours base = false →
      valueEqOpt theirs base = false →
      bothTables ours theirs = false →
      FirstConflictAt path base ours theirs ⟨path, base, ours, theirs⟩
  | child {path : String} {base : Option TomlValue}
      {ot tt : List (String × TomlValue)} {ks pre post : List String}
      {k : String} {cf : MergeConflict} :
      valueEqOpt (some (.table ot)) (some (.table tt)) = false →
      valueEqOpt (some (.table ot)) base = false →
      valueEqOpt (some (.table tt)) base = false →
      ks.Sorted (· < ·) →
      (∀ x, x ∈ ks ↔ x ∈ ot.map Prod.fst ∨ x ∈ tt.map Prod.fst ∨
        x ∈ baseKeysIfTable base) →
      ks = pre ++ k :: post →
      (∀ k' ∈ pre, ∃ r, childMergeAt path base ot tt k' = .ok r) →
      FirstConflictAt (join_path path k) (baseChild base k)
        (tableGet ot k) (tableGet tt k) cf →
      FirstConflictAt path base (some (.table ot)) (some (.table tt)) cf

/-- A miniature concrete codec mapping a handful of texts to documents,
used to witness the text-level theorems on concrete inputs (the real
TOML parser and serializer are external library code). -/
def demoCodec : TomlCodec where
  parse s :=
    if s = "a = 1\n" then some (.table [("a", .int 1)])
    else if s = "a = 2\n" then some (.table [("a", .int 2)])
    else if s = "a = 3\n" then some (.table [("a", .int 3)])
    else none
  serializePretty v :=
    if v = .table [("a", .int 1)] then some "a = 1"
    else if v = .table [("a", .int 2)] then some "a = 2"
    else if v = .table [("a", .int 3)] then some "a = 3"
    else none
  display _ := "value"

/-- A second miniature codec covering float documents, mirroring the
real TOML parser and pretty serializer on these inputs: `-0.0` and
`0.0` parse to distinct floats that serialize differently (though
`-0.0 == 0.0` under IEEE `==`), and `nan` parses to the NaN float. -/
def demoCodecF : TomlCodec where
  parse s :=
    if s = "a = 1.0\n" then some (.table [("a", .float (.finite 1))])
    else if s = "a = -0.0\n" then some (.table [("a", .float .negZero)])
    else if s = "a = 0.0\n" then some (.table [("a", .float (.finite 0))])
    else if s = "a = nan\n" then some (.table [("a", .float .nan)])
    else none
  serializePretty v :=
    if v = .table [("a", .float (.finite 1))] then some "a = 1.0"
    else if v = .table [("a", .float .negZero)] then some "a = -0.0"
    else if v = .table [("a", .float (.finite 0))] then some "a = 0.0"
    else if v = .table [("a", .float .nan)] then some "a = nan"
    else none
  display _ := "value"

theorem ne_true_of_false {b : Bool} (h : b = false) : ¬ b = true := by
  rw [h]
  intro hc
  cases hc

section LadderLemmas

variable (path : String) (base ours theirs : Option TomlValue)

theorem mv_agree (h : valueEqOpt ours theirs = true) :
    merge_value path base ours theirs = .ok ours := by
  unfold merge_value
  rw [if_pos h]

theorem mv_ours_base (hne : valueEqOpt ours theirs = false)
    (h : valueEqOpt ours base = true) :
    merge_value path base ours theirs = .ok theirs := by
  unfold merge_value
  rw [if_neg (ne_true_of_false hne), if_pos h]

theorem mv_theirs_base (hne : valueEqOpt ours theirs = false)
    (hob : valueEqOpt ours base = false)
    (h : valueEqOpt theirs base = true) :
    merge_value path base ours theirs = .ok ours := by
  unfold merge_value
  rw [if_neg (ne_true_of_false hne), if_neg (ne_true_of_false hob),
    if_pos h]

theorem mv_tables {ot tt : List (String × TomlValue)}
    (hne : valueEqOpt ours theirs = false)
    (hob : valueEqOpt ours base = false)
    (htb : valueEqOpt theirs base = false)
    (ho : ours = some (.table ot)) (ht : theirs = some (.table tt)) :
    merge_value path base ours theirs =
      match merge_table path base ot tt (tableUnionKeys base ot tt) [] with
      | .error c => .error c
      | .ok out => .ok (some (.table out)) := by
  subst ho ht
  unfold merge_value
  rw [if_neg (ne_true_of_false hne), if_neg (ne_true_of_false hob),
    if_neg (ne_true_of_false htb)]

theorem mv_conflict (hne : valueEqOpt ours theirs = false)
    (hob : valueEqOpt ours base = false)
    (htb : valueEqOpt theirs base = false)
    (hsh : bothTables ours theirs = false) :
    merge_value path base ours theirs =
      .error ⟨path, base, ours, theirs⟩ := by
  unfold merge_value
  rw [if_neg (ne_true_of_false hne), if_neg (ne_true_of_false hob),
    if_neg (ne_true_of_false htb)]
  rcases ours with _ | v <;> rcases theirs with _ | w
  · rfl
  · cases w <;> rfl
  · cases v <;> rfl
  · cases v <;> cases w <;> first | rfl | simp [bothTables] at hsh

end LadderLemmas

section SortedKeys

theorem mem_insertSorted (k y : String) :
    ∀ l : List String, y ∈ insertSorted k l ↔ y = k ∨ y ∈ l := by
  intro l
  induction l with
  | nil => simp [insertSorted]
  | cons x xs ih =>
    unfold insertSorted
    by_cases h1 : strLtB k x = true
    · rw [if_pos h1]; simp
    · rw [if_neg h1]
      by_cases h2 : k = x
      · rw [if_pos h2]
        subst h2
        simp only [List.mem_cons]
        tauto
      · rw [if_neg h2]
        simp only [List.mem_cons, ih]
        tauto

theorem sorted_insertSorted (k : String) :
    ∀ l : List String, l.Sorted (· < ·) →
      (insertSorted k l).Sorted (· < ·) := by
  intro l
  induction l with
  | nil => intro _; simp [insertSorted]
  | cons x xs ih =>
    intro hs
    rw [List.sorted_cons] at hs
    unfold insertSorted
    by_cases h1 : strLtB k x = true
    · have hkx : k < x := (strLtB_iff k x).mp h1
      rw [if_pos h1, List.sorted_cons]
      refine ⟨?_, by rw [List.sorted_cons]; exact hs⟩
      intro y hy
      rcases List.mem_cons.mp hy with rfl | hy
      · exact hkx
      · exact lt_trans hkx (hs.1 y hy)
    · rw [if_neg h1]
      by_cases h2 : k = x
      · rw [if_pos h2, List.sorted_cons]
        exact hs
      · rw [if_neg h2]
        have hxk : x < k := by
          rcases lt_trichotomy k x with h | h | h
          · exact absurd ((strLtB_iff k x).mpr h) h1
          · exact absurd h h2
          · exact h
        rw [List.sorted_cons]
        refine ⟨?_, ih hs.2⟩
        intro y hy
        rcases (mem_insertSorted k y xs).mp hy with rfl | hy
        · exact hxk
        · exact hs.1 y hy

theorem sorted_sortedKeys (ks : List String) :
    (sortedKeys ks).Sorted (· < ·) := by
  induction ks with
  | nil => simp [sortedKeys]
  | cons x xs ih => exact sorted_insertSorted x _ ih

theorem mem_sortedKeys (ks : List String) (y : String) :
    y ∈ sortedKeys ks ↔ y ∈ ks := by
  induction ks with
  | nil => simp [sortedKeys]
  | cons x xs ih =>
    show y ∈ insertSorted x (sortedKeys xs) ↔ _
    rw [mem_insertSorted, ih]
    simp

theorem sorted_lt_eq_of_mem_iff :
    ∀ {l1 l2 : List String}, l1.Sorted (· < ·) → l2.Sorted (· < ·) →
      (∀ x, x ∈ l1 ↔ x ∈ l2) → l1 = l2 := by
  intro l1
  induction l1 with
  | nil =>
    intro l2 _ _ hmem
    cases l2 with
    | nil => rfl
    | cons y ys => exact absurd ((hmem y).mpr (List.mem_cons_self y ys)) (by simp)
  | cons x xs ih =>
    intro l2 h1 h2 hmem
    cases l2 with
    | nil => exact absurd ((hmem x).mp (List.mem_cons_self x xs)) (by simp)
    | cons y ys =>
      rw [List.sorted_cons] at h1 h2
      have hxy : x = y := by
        rcases List.mem_cons.mp ((hmem x).mp (List.mem_cons_self x xs)) with h | h
        · exact h
        · rcases List.mem_cons.mp ((hmem y).mpr (List.mem_cons_self y ys)) with h' | h'
          · exact h'.symm
          · exact absurd (lt_trans (h1.1 y h') (h2.1 x h)) (lt_irrefl x)
      subst hxy
      have htail : ∀ z, z ∈ xs ↔ z ∈ ys := by
        intro z
        constructor
        · intro hz
          rcases List.mem_cons.mp ((hmem z).mp (List.mem_cons_of_mem x hz)) with rfl | h
          · exact absurd (h1.1 z hz) (lt_irrefl z)
          · exact h
        · intro hz
          rcases List.mem_cons.mp ((hmem z).mpr (List.mem_cons_of_mem x hz)) with rfl | h
          · exact absurd (h2.1 z hz) (lt_irrefl z)
          · exact h
      rw [ih h1.2 h2.2 htail]

theorem mem_tableUnionKeys (base : Option TomlValue)
    (ot tt : List (String × TomlValue)) (y : String) :
    y ∈ tableUnionKeys base ot tt ↔
      y ∈ ot.map Prod.fst ∨ y ∈ tt.map Prod.fst ∨
        y ∈ baseKeysIfTable base := by
  unfold tableUnionKeys
  rw [mem_sortedKeys]
  simp [or_assoc]

theorem sorted_tableUnionKeys (base : Option TomlValue)
    (ot tt : List (String × TomlValue)) :
    (tableUnionKeys base ot tt).Sorted (· < ·) :=
  sorted_sortedKeys _

theorem tableUnionKeys_comm (base : Option TomlValue)
    (ot tt : List (String × TomlValue)) :
    tableUnionKeys base ot tt = tableUnionKeys base tt ot := by
  apply sorted_lt_eq_of_mem_iff (sorted_tableUnionKeys base ot tt)
    (sorted_tableUnionKeys base tt ot)
  intro x
  rw [mem_tableUnionKeys, mem_tableUnionKeys]
  tauto

end SortedKeys

section TableGetLemmas

theorem mem_of_tableGet_eq_some {entries : List (String × TomlValue)}
    {k : String} {v : TomlValue} (h : tableGet entries k = some v) :
    (k, v) ∈ entries := by
  unfold tableGet at h
  rcases Option.map_eq_some'.mp h with ⟨e, he, hv⟩
  have hp := List.find?_some he
  have hk : e.1 = k := by simpa using hp
  have := List.mem_of_find?_eq_some he
  rcases e with ⟨a, b⟩
  subst hv
  simp only at hk
  subst hk
  exact this

theorem tableGet_eq_none_of_not_mem {entries : List (String × TomlValue)}
    {k : String} (h : k ∉ entries.map Prod.fst) :
    tableGet entries k = none := by
  unfold tableGet
  rw [List.find?_eq_none.mpr]
  · rfl
  · intro e he hk
    exact h (List.mem_map.mpr ⟨e, he, by simpa using hk⟩)

theorem tableGet_eq_some_of_mem {entries : List (String × TomlValue)}
    {k : String} {v : TomlValue}
    (hnd : (entries.map Prod.fst).Nodup) (h : (k, v) ∈ entries) :
    tableGet entries k = some v := by
  induction entries with
  | nil => simp at h
  | cons e es ih =>
    rw [List.map_cons, List.nodup_cons] at hnd
    rcases List.mem_cons.mp h with rfl | h
    · unfold tableGet
      rw [List.find?_cons_of_pos _ (by simp)]
      rfl
    · have hne : e.1 ≠ k := by
        intro hk
        exact hnd.1 (hk ▸ List.mem_map.mpr ⟨(k, v), h, rfl⟩)
      unfold tableGet at ih ⊢
      rw [List.find?_cons_of_neg _ (by simpa using hne)]
      exact ih hnd.2 h

/-- A key outside the key union has no child on any of the three
sides. -/
theorem children_none_of_not_mem_union {base : Option TomlValue}
    {ot tt : List (String × TomlValue)} {k : String}
    (h : k ∉ tableUnionKeys base ot tt) :
    baseChild base k = none ∧ tableGet ot k = none ∧
      tableGet tt k = none := by
  rw [mem_tableUnionKeys] at h
  push_neg at h
  refine ⟨?_, tableGet_eq_none_of_not_mem h.1,
    tableGet_eq_none_of_not_mem h.2.1⟩
  have hb := h.2.2
  unfold baseChild
  cases hbt : base.bind asTable with
  | none => rfl
  | some bt =>
    have hkb : k ∉ bt.map Prod.fst := by
      unfold baseKeysIfTable at hb
      rw [hbt] at hb
      exact hb
    exact tableGet_eq_none_of_not_mem hkb

end TableGetLemmas

section MergeTableLemmas

variable (path : String) (base : Option TomlValue)
variable (ot tt : List (String × TomlValue))

theorem childKeepAt_eq_none_of_error {k : String} {c : MergeConflict}
    (h : childMergeAt path base ot tt k = .error c) :
    childKeepAt path base ot tt k = none := by
  unfold childKeepAt
  rw [h]

theorem childKeepAt_eq_none_of_ok_none {k : String}
    (h : childMergeAt path base ot tt k = .ok none) :
    childKeepAt path base ot tt k = none := by
  unfold childKeepAt
  rw [h]

theorem childKeepAt_eq_some_of_ok_some {k : String} {v : TomlValue}
    (h : childMergeAt path base ot tt k = .ok (some v)) :
    childKeepAt path base ot tt k = some (k, v) := by
  unfold childKeepAt
  rw [h]

theorem childKeepAt_eq_some_iff {k : String} {e : String × TomlValue} :
    childKeepAt path base ot tt k = some e ↔
      ∃ v, e = (k, v) ∧ childMergeAt path base ot tt k = .ok (some v) := by
  unfold childKeepAt
  rcases hc : childMergeAt path base ot tt k with c | r
  · simp
  · rcases r with _ | v
    · simp
    · simp only [Option.some.injEq, Except.ok.injEq]
      constructor
      · intro h
        exact ⟨v, h.symm, rfl⟩
      · rintro ⟨v', rfl, hv⟩
        rw [← Option.some.injEq] at hv
        cases hv
        rfl

theorem merge_table_nil (acc : List (String × TomlValue)) :
    merge_table path base ot tt [] acc = .ok acc := by
  unfold merge_table
  rfl

theorem merge_table_cons_error {k : String} {rest : List String}
    {acc : List (String × TomlValue)} {c : MergeConflict}
    (h : merge_value (join_path path k) (baseChild base k)
      (tableGet ot k) (tableGet tt k) = .error c) :
    merge_table path base ot tt (k :: rest) acc = .error c := by
  unfold merge_table
  rw [h]

theorem merge_table_cons_none {k : String} {rest : List String}
    {acc : List (String × TomlValue)}
    (h : merge_value (join_path path k) (baseChild base k)
      (tableGet ot k) (tableGet tt k) = .ok none) :
    merge_table path base ot tt (k :: rest) acc =
      merge_table path base ot tt rest acc := by
  conv_lhs => unfold merge_table
  rw [h]

theorem merge_table_cons_some {k : String} {rest : List String}
    {acc : List (String × TomlValue)} {v : TomlValue}
    (h : merge_value (join_path path k) (baseChild base k)
      (tableGet ot k) (tableGet tt k) = .ok (some v)) :
    merge_table path base ot tt (k :: rest) acc =
      merge_table path base ot tt rest (acc ++ [(k, v)]) := by
  conv_lhs => unfold merge_table
  rw [h]

theorem merge_table_eq_ok_iff :
    ∀ (ks : List String) (acc out : List (String × TomlValue)),
      merge_table path base ot tt ks acc = .ok out ↔
        ((∀ k ∈ ks, ∃ r, childMergeAt path base ot tt k = .ok r) ∧
         out = acc ++ ks.filterMap (childKeepAt path base ot tt)) := by
  intro ks
  induction ks with
  | nil =>
    intro acc out
    unfold merge_table
    simp only [List.not_mem_nil, false_implies, implies_true, true_and,
      List.filterMap_nil, List.append_nil, Except.ok.injEq]
    exact ⟨fun h => h.symm, fun h => h.symm⟩
  | cons k rest ih =>
    intro acc out
    unfold merge_table
    rw [show merge_value (join_path path k) (baseChild base k)
      (tableGet ot k) (tableGet tt k) = childMergeAt path base ot tt k
      from rfl]
    rcases hc : childMergeAt path base ot tt k with c | r
    · constructor
      · intro h
        cases h
      · rintro ⟨hall, -⟩
        rcases hall k (List.mem_cons_self k rest) with ⟨r, hr⟩
        rw [hc] at hr
        cases hr
    · have hforall : ∀ (p : Prop),
          ((∀ k' ∈ k :: rest, ∃ r', childMergeAt path base ot tt k' = .ok r') ∧ p) ↔
          ((∀ k' ∈ rest, ∃ r', childMergeAt path base ot tt k' = .ok r') ∧ p) := by
        intro p
        constructor
        · rintro ⟨hall, hp⟩
          exact ⟨fun k' hk' => hall k' (List.mem_cons_of_mem _ hk'), hp⟩
        · rintro ⟨hall, hp⟩
          refine ⟨?_, hp⟩
          intro k' hk'
          rcases List.mem_cons.mp hk' with rfl | hk'
          · exact ⟨r, hc⟩
          · exact hall k' hk'
      rcases r with _ | v
      · rw [ih acc out, List.filterMap_cons,
          childKeepAt_eq_none_of_ok_none path base ot tt hc]
        exact (hforall _).symm
      · rw [ih (acc ++ [(k, v)]) out, List.filterMap_cons,
          childKeepAt_eq_some_of_ok_some path base ot tt hc]
        rw [hforall _]
        simp [List.append_assoc]

theorem merge_table_eq_error_iff :
    ∀ (ks : List String) (acc : List (String × TomlValue))
      (c : MergeConflict),
      merge_table path base ot tt ks acc = .error c ↔
        ∃ pre k post, ks = pre ++ k :: post ∧
          (∀ k' ∈ pre, ∃ r, childMergeAt path base ot tt k' = .ok r) ∧
          childMergeAt path base ot tt k = .error c := by
  intro ks
  induction ks with
  | nil =>
    intro acc c
    unfold merge_table
    constructor
    · intro h
      cases h
    · rintro ⟨pre, k, post, heq, -, -⟩
      exact absurd heq (List.append_ne_nil_of_right_ne_nil pre (by simp)).symm
  | cons k rest ih =>
    intro acc c
    unfold merge_table
    rw [show merge_value (join_path path k) (baseChild base k)
      (tableGet ot k) (tableGet tt k) = childMergeAt path base ot tt k
      from rfl]
    rcases hc : childMergeAt path base ot tt k with c' | r
    · constructor
      · intro h
        cases h
        exact ⟨[], k, rest, rfl, by simp, hc⟩
      · rintro ⟨pre, k', post, heq, hpre, herr⟩
        cases pre with
        | nil =>
          rw [List.nil_append, List.cons.injEq] at heq
          rw [heq.1] at hc
          rw [hc] at herr
          cases herr
          rfl
        | cons p0 pre' =>
          rw [List.cons_append, List.cons.injEq] at heq
          rcases hpre p0 (List.mem_cons_self p0 pre') with ⟨r, hr⟩
          rw [← heq.1, hc] at hr
          cases hr
    · have hstep : ∀ acc', merge_table path base ot tt rest acc' = .error c ↔
          ∃ pre k' post, (k :: rest : List String) = pre ++ k' :: post ∧
            (∀ k'' ∈ pre, ∃ r, childMergeAt path base ot tt k'' = .ok r) ∧
            childMergeAt path base ot tt k' = .error c := by
        intro acc'
        rw [ih acc' c]
        constructor
        · rintro ⟨pre, k', post, heq, hpre, herr⟩
          refine ⟨k :: pre, k', post, by rw [heq, List.cons_append], ?_, herr⟩
          intro k'' hk''
          rcases List.mem_cons.mp hk'' with rfl | hk''
          · exact ⟨r, hc⟩
          · exact hpre k'' hk''
        · rintro ⟨pre, k', post, heq, hpre, herr⟩
          cases pre with
          | nil =>
            rw [List.nil_append, List.cons.injEq] at heq
            rw [heq.1] at hc
            rw [hc] at herr
            cases herr
          | cons p0 pre' =>
            rw [List.cons_append, List.cons.injEq] at heq
            refine ⟨pre', k', post, heq.2, ?_, herr⟩
            intro k'' hk''
            exact hpre k'' (List.mem_cons_of_mem p0 hk'')
      rcases r with _ | v
      · exact hstep acc
      · exact hstep (acc ++ [(k, v)])

end MergeTableLemmas

section TableCaseLemmas

variable (path : String) (base : Option TomlValue)
variable (ot tt : List (String × TomlValue))

/-- The table the successful table case produces: the key union in
ascending order, filtered and bound through the recursive merges. -/
theorem merge_value_tables_eq_ok_iff (r : Option TomlValue)
    (hne : valueEqOpt (some (.table ot)) (some (.table tt)) = false)
    (hob : valueEqOpt (some (.table ot)) base = false)
    (htb : valueEqOpt (some (.table tt)) base = false) :
    merge_value path base (some (.table ot)) (some (.table tt)) = .ok r ↔
      ((∀ k ∈ tableUnionKeys base ot tt,
          ∃ r', childMergeAt path base ot tt k = .ok r') ∧
       r = some (.table ((tableUnionKeys base ot tt).filterMap
          (childKeepAt path base ot tt)))) := by
  rw [mv_tables path base (some (.table ot)) (some (.table tt))
    hne hob htb rfl rfl]
  rcases hmt : merge_table path base ot tt (tableUnionKeys base ot tt) []
    with c | out
  · rw [merge_table_eq_error_iff] at hmt
    rcases hmt with ⟨pre, k, post, heq, hpre, herr⟩
    show (Except.error c : Except MergeConflict (Option TomlValue))
      = .ok r ↔ _
    constructor
    · intro h
      cases h
    · rintro ⟨hall, -⟩
      have hkmem : k ∈ tableUnionKeys base ot tt := by
        rw [heq]
        exact List.mem_append_right pre (List.mem_cons_self k post)
      rcases hall k hkmem with ⟨r', hr'⟩
      rw [herr] at hr'
      cases hr'
  · have hok := (merge_table_eq_ok_iff path base ot tt
      (tableUnionKeys base ot tt) [] out).mp hmt
    rw [List.nil_append] at hok
    show Except.ok (some (TomlValue.table out)) = .ok r ↔ _
    simp only [Except.ok.injEq]
    constructor
    · intro h
      exact ⟨hok.1, by rw [← h, hok.2]⟩
    · rintro ⟨-, rfl⟩
      rw [hok.2]

/-- The keys of the produced table, in order, form a sublist of the
iterated key union. -/
theorem map_fst_filterMap_childKeep (ks : List String) :
    ((ks.filterMap (childKeepAt path base ot tt)).map Prod.fst).Sublist
      ks := by
  induction ks with
  | nil => simp
  | cons k rest ih =>
    rw [List.filterMap_cons]
    rcases hck : childKeepAt path base ot tt k with _ | e
    · exact ih.cons k
    · rcases (childKeepAt_eq_some_iff path base ot tt).mp hck
        with ⟨v, rfl, -⟩
      rw [List.map_cons]
      exact ih.cons₂ k

/-- Membership in the produced table characterizes exactly the keys
whose recursive merge returns a present value, each bound to that
result. -/
theorem mem_filterMap_childKeep (ks : List String) (k : String)
    (v : TomlValue) :
    (k, v) ∈ ks.filterMap (childKeepAt path base ot tt) ↔
      k ∈ ks ∧ childMergeAt path base ot tt k = .ok (some v) := by
  rw [List.mem_filterMap]
  constructor
  · rintro ⟨a, ha, hk⟩
    rcases (childKeepAt_eq_some_iff path base ot tt).mp hk
      with ⟨v', hv', hok⟩
    rw [Prod.mk.injEq] at hv'
    obtain ⟨rfl, rfl⟩ := hv'
    exact ⟨ha, hok⟩
  · rintro ⟨hk, hok⟩
    exact ⟨k, hk, childKeepAt_eq_some_of_ok_some path base ot tt hok⟩

end TableCaseLemmas

section SwapLemmas

theorem one_le_sizeOf_opt (o : Option TomlValue) : 1 ≤ sizeOf o := by
  cases o with
  | none => simp
  | some v => simp only [Option.some.sizeOf_spec]; omega

theorem bothTables_comm (o t : Option TomlValue) :
    bothTables o t = bothTables t o := by
  rcases o with _ | v <;> rcases t with _ | w
  · rfl
  · cases w <;> rfl
  · cases v <;> rfl
  · cases v <;> cases w <;> rfl

theorem bothTables_eq_true_iff (o t : Option TomlValue) :
    bothTables o t = true ↔
      ∃ ot tt, o = some (.table ot) ∧ t = some (.table tt) := by
  rcases o with _ | v <;> rcases t with _ | w
  · simp [bothTables]
  · cases w <;> simp [bothTables]
  · cases v <;> simp [bothTables]
  · cases v <;> cases w <;> simp [bothTables]

theorem eqvVOpt_none_left {v : Option TomlValue}
    (h : eqvVOpt none v = true) : v = none := by
  rcases v with _ | v
  · rfl
  · cases h

theorem eqvVOpt_some_left {w1 : TomlValue} {v : Option TomlValue}
    (h : eqvVOpt (some w1) v = true) :
    ∃ w2, v = some w2 ∧ eqvV w1 w2 = true := by
  rcases v with _ | w2
  · cases h
  · exact ⟨w2, rfl, h⟩

theorem genEqVTable_append_entry
    {acc1 acc2 : List (String × TomlValue)} {k : String}
    {v1 v2 : TomlValue} (hacc : genEqVTable f64Eqv acc1 acc2 = true)
    (hv : eqvV v1 v2 = true) :
    genEqVTable f64Eqv (acc1 ++ [(k, v1)]) (acc2 ++ [(k, v2)]) = true := by
  rw [eqvVTable_iff_canon] at hacc ⊢
  rw [canonVTable_append, canonVTable_append, hacc,
    show canonVTable [(k, v1)] = [(k, canonV v1)] from rfl,
    show canonVTable [(k, v2)] = [(k, canonV v2)] from rfl,
    (eqvV_iff_canon v1 v2).mp hv]

theorem merge_table_swaprel (path : String) (base : Option TomlValue)
    (ot tt : List (String × TomlValue)) :
    ∀ (ks : List String) (acc1 acc2 : List (String × TomlValue)),
      genEqVTable f64Eqv acc1 acc2 = true →
      (∀ k ∈ ks, SwapRel
        (merge_value (join_path path k) (baseChild base k)
          (tableGet ot k) (tableGet tt k))
        (merge_value (join_path path k) (baseChild base k)
          (tableGet tt k) (tableGet ot k))) →
      SwapRelTable (merge_table path base ot tt ks acc1)
        (merge_table path base tt ot ks acc2) := by
  intro ks
  induction ks with
  | nil =>
    intro acc1 acc2 hacc _
    unfold merge_table
    exact hacc
  | cons k rest ih =>
    intro acc1 acc2 hacc hsw
    have hk := hsw k (List.mem_cons_self k rest)
    unfold merge_table
    rcases hr1 : merge_value (join_path path k) (baseChild base k)
        (tableGet ot k) (tableGet tt k) with c1 | v1 <;>
      rcases hr2 : merge_value (join_path path k) (baseChild base k)
        (tableGet tt k) (tableGet ot k) with c2 | v2 <;>
      rw [hr1, hr2] at hk

    · show SwapRelTable (.error c1) (.error c2)
      exact hk
    · exact hk.elim
    · exact hk.elim
    · have hrest := fun k' hk' => hsw k' (List.mem_cons_of_mem k hk')
      rcases v1 with _ | w1
      · rw [eqvVOpt_none_left hk]
        exact ih acc1 acc2 hacc hrest
      · rcases eqvVOpt_some_left hk with ⟨w2, rfl, hw⟩
        exact ih (acc1 ++ [(k, w1)]) (acc2 ++ [(k, w2)])
          (genEqVTable_append_entry hacc hw) hrest

theorem merge_value_swaprel_le :
    ∀ (n : ℕ) (path : String) (base ours theirs : Option TomlValue),
      sizeOf ours + sizeOf theirs ≤ n →
      SwapRel (merge_value path base ours theirs)
        (merge_value path base theirs ours) := by
  intro n
  induction n with
  | zero =>
    intro path base ours theirs hn
    have h1 := one_le_sizeOf_opt ours
    have h2 := one_le_sizeOf_opt theirs
    omega
  | succ n ih =>
    intro path base ours theirs hn
    have hsymm : valueEqOpt theirs ours = valueEqOpt ours theirs :=
      valueEqOpt_symm theirs ours
    rcases h1 : valueEqOpt ours theirs with _ | _
    · rcases h2 : valueEqOpt ours base with _ | _
      · rcases h3 : valueEqOpt theirs base with _ | _
        · rcases hsh : bothTables ours theirs with _ | _
          · rw [mv_conflict path base ours theirs h1 h2 h3 hsh,
              mv_conflict path base theirs ours (hsymm.trans h1) h3 h2
                (by rw [bothTables_comm]; exact hsh)]
            show (⟨path, base, theirs, ours⟩ : MergeConflict)
              = swapConflict ⟨path, base, ours, theirs⟩
            rfl
          · rcases (bothTables_eq_true_iff ours theirs).mp hsh
              with ⟨ot, ttb, ho, ht⟩
            subst ho ht
            rw [mv_tables path base (some (.table ot))
                (some (.table ttb)) h1 h2 h3 rfl rfl,
              mv_tables path base (some (.table ttb))
                (some (.table ot)) (hsymm.trans h1) h3 h2 rfl rfl,
              tableUnionKeys_comm base ttb ot]
            have hpoint : ∀ k ∈ tableUnionKeys base ot ttb, SwapRel
                (merge_value (join_path path k) (baseChild base k)
                  (tableGet ot k) (tableGet ttb k))
                (merge_value (join_path path k) (baseChild base k)
                  (tableGet ttb k) (tableGet ot k)) := by
              intro k _
              apply ih
              have hot := sizeOf_tableGet_opt ot k
              have htt := sizeOf_tableGet_opt ttb k
              simp only [Option.some.sizeOf_spec,
                TomlValue.table.sizeOf_spec] at hn
              omega
            have hmt := merge_table_swaprel path base ot ttb
              (tableUnionKeys base ot ttb) [] [] rfl hpoint
            rcases hmt1 : merge_table path base ot ttb
                (tableUnionKeys base ot ttb) [] with c1 | out1 <;>
              rcases hmt2 : merge_table path base ttb ot
                (tableUnionKeys base ot ttb) [] with c2 | out2 <;>
              rw [hmt1, hmt2] at hmt
            · show SwapRel (.error c1) (.error c2)
              exact hmt
            · exact (hmt : False).elim
            · exact (hmt : False).elim
            · show SwapRel (.ok (some (.table out1)))
                (.ok (some (.table out2)))
              show eqvVOpt (some (.table out1)) (some (.table out2))
                = true
              exact hmt
        · rw [mv_theirs_base path base ours theirs h1 h2 h3,
            mv_ours_base path base theirs ours (hsymm.trans h1) h3]
          show eqvVOpt ours ours = true
          exact eqvVOpt_refl ours
      · have h3 : valueEqOpt theirs base = false := by
          rcases h3 : valueEqOpt theirs base with _ | _
          · rfl
          · have hot : valueEqOpt ours theirs = true :=
              valueEqOpt_trans h2
                ((valueEqOpt_symm base theirs).trans h3)
            rw [h1] at hot
            cases hot
        rw [mv_ours_base path base ours theirs h1 h2,
          mv_theirs_base path base theirs ours (hsymm.trans h1) h3 h2]
        show eqvVOpt theirs theirs = true
        exact eqvVOpt_refl theirs
    · rw [mv_agree path base ours theirs h1,
        mv_agree path base theirs ours (hsymm.trans h1)]
      show eqvVOpt ours theirs = true
      exact valueEqOpt_to_eqv h1

/-- Exchanging the two sides of `merge_value` either swaps the
ours/theirs slots of the reported conflict (keeping its path and base)
or yields results equal up to IEEE `==` at floats. -/
theorem merge_value_swaprel (path : String)
    (base ours theirs : Option TomlValue) :
    SwapRel (merge_value path base ours theirs)
      (merge_value path base theirs ours) :=
  merge_value_swaprel_le (sizeOf ours + sizeOf theirs) path base ours
    theirs le_rfl

end SwapLemmas

section RootTotality

/-- With all three sides present, `merge_value` returns either a
present value or a conflict, never an absent result. -/
theorem merge_value_all_some (path : String) (b o t : TomlValue) :
    (∃ v, merge_value path (some b) (some o) (some t) = .ok (some v)) ∨
    (∃ c, merge_value path (some b) (some o) (some t) = .error c) := by
  rcases h1 : valueEqOpt (some o) (some t) with _ | _
  · rcases h2 : valueEqOpt (some o) (some b) with _ | _
    · rcases h3 : valueEqOpt (some t) (some b) with _ | _
      · rcases hsh : bothTables (some o) (some t) with _ | _
        · exact .inr ⟨_, mv_conflict _ _ _ _ h1 h2 h3 hsh⟩
        · rcases (bothTables_eq_true_iff (some o) (some t)).mp hsh
            with ⟨ot, ttb, ho, ht⟩
          rw [Option.some.injEq] at ho ht
          subst ho ht
          rw [mv_tables path (some b) (some (.table ot))
            (some (.table ttb)) h1 h2 h3 rfl rfl]
          rcases merge_table path (some b) ot ttb
            (tableUnionKeys (some b) ot ttb) [] with c | out
          · exact .inr ⟨c, rfl⟩
          · exact .inl ⟨.table out, rfl⟩
      · exact .inl ⟨o, mv_theirs_base _ _ _ _ h1 h2 h3⟩
    · exact .inl ⟨t, mv_ours_base _ _ _ _ h1 h2⟩
  · exact .inl ⟨o, mv_agree _ _ _ _ h1⟩

end RootTotality

section FirstConflict

theorem merge_value_error_first_le :
    ∀ (n : ℕ) (path : String) (base ours theirs : Option TomlValue)
      (cf : MergeConflict),
      sizeOf ours ≤ n →
      merge_value path base ours theirs = .error cf →
      FirstConflictAt path base ours theirs cf := by
  intro n
  induction n with
  | zero =>
    intro path base ours theirs cf hn _
    have := one_le_sizeOf_opt ours
    omega
  | succ n ih =>
    intro path base ours theirs cf hn h
    rcases h1 : valueEqOpt ours theirs with _ | _
    case true =>
      rw [mv_agree _ _ _ _ h1] at h
      cases h
    case false =>
      rcases h2 : valueEqOpt ours base with _ | _
      case true =>
        rw [mv_ours_base _ _ _ _ h1 h2] at h
        cases h
      case false =>
        rcases h3 : valueEqOpt theirs base with _ | _
        case true =>
          rw [mv_theirs_base _ _ _ _ h1 h2 h3] at h
          cases h
        case false =>
          rcases hsh : bothTables ours theirs with _ | _
          · rw [mv_conflict _ _ _ _ h1 h2 h3 hsh] at h
            cases h
            exact FirstConflictAt.here h1 h2 h3 hsh
          · rcases (bothTables_eq_true_iff ours theirs).mp hsh
              with ⟨ot, ttb, ho, ht⟩
            subst ho ht
            rw [mv_tables path base (some (.table ot))
              (some (.table ttb)) h1 h2 h3 rfl rfl] at h
            rcases hmt : merge_table path base ot ttb
              (tableUnionKeys base ot ttb) [] with c | out
            · rw [hmt] at h
              have hc : (Except.error c :
                  Except MergeConflict (Option TomlValue)) = .error cf := h
              cases hc
              rcases (merge_table_eq_error_iff path base ot ttb
                (tableUnionKeys base ot ttb) [] cf).mp hmt
                with ⟨pre, k, post, heq, hpre, herr⟩
              refine FirstConflictAt.child h1 h2 h3
                (sorted_tableUnionKeys base ot ttb)
                (mem_tableUnionKeys base ot ttb) heq hpre ?_
              apply ih
              · have hchild := sizeOf_tableGet_opt ot k
                simp only [Option.some.sizeOf_spec,
                  TomlValue.table.sizeOf_spec] at hn
                omega
              · exact herr
            · rw [hmt] at h
              cases h

/-- A conflict reported by `merge_value` is always the first rule-4
firing in lexicographic iteration order, at the shallowest position
reached. -/
theorem merge_value_error_first (path : String)
    (base ours theirs : Option TomlValue) (cf : MergeConflict)
    (h : merge_value path base ours theirs = .error cf) :
    FirstConflictAt path base ours theirs cf :=
  merge_value_error_first_le (sizeOf ours) path base ours theirs cf
    le_rfl h

end FirstConflict

section NewlineLemmas

theorem countLeadingNewlines_eq_zero (l : List Char)
    (h : l.head? ≠ some '\n') : countLeadingNewlines l = 0 := by
  cases l with
  | nil => rfl
  | cons c cs =>
    unfold countLeadingNewlines
    rw [if_neg]
    intro hc
    exact h (by rw [hc]; rfl)

theorem trailingNewlineCount_ensure (s : String)
    (h : trailingNewlineCount s ≤ 1) :
    trailingNewlineCount (ensureTrailingNewline s) = 1 := by
  unfold ensureTrailingNewline
  by_cases he : endsWithNewline s = true
  · rw [if_pos he]
    unfold endsWithNewline at he
    rw [decide_eq_true_iff, ← List.head?_reverse] at he
    unfold trailingNewlineCount at h ⊢
    rcases hr : s.data.reverse with _ | ⟨c, rest⟩
    · rw [hr] at he
      cases he
    · rw [hr] at he h
      rw [List.head?_cons, Option.some.injEq] at he
      unfold countLeadingNewlines at h ⊢
      rw [if_pos he] at h ⊢
      omega
  · rw [if_neg he]
    unfold endsWithNewline at he
    rw [decide_eq_true_iff, ← List.head?_reverse] at he
    unfold trailingNewlineCount
    rw [show (s.push '\n').data = s.data ++ ['\n'] from rfl,
      List.reverse_append]
    show countLeadingNewlines ('\n' :: s.data.reverse) = 1
    unfold countLeadingNewlines
    rw [if_pos rfl, countLeadingNewlines_eq_zero s.data.reverse he]

end NewlineLemmas

section TextLevelLemmas

theorem mmt_base_none (c : TomlCodec) (bt ot tt : String)
    (h : c.parse bt = none) :
    merge_manifest_texts c bt ot tt =
      .error ⟨"<parse:base>", none, none, none⟩ := by
  unfold merge_manifest_texts
  rw [h]

theorem mmt_ours_none (c : TomlCodec) (bt ot tt : String)
    (vb : TomlValue) (hb : c.parse bt = some vb)
    (h : c.parse ot = none) :
    merge_manifest_texts c bt ot tt =
      .error ⟨"<parse:ours>", none, none, none⟩ := by
  unfold merge_manifest_texts
  rw [hb, h]

theorem mmt_theirs_none (c : TomlCodec) (bt ot tt : String)
    (vb vo : TomlValue) (hb : c.parse bt = some vb)
    (ho : c.parse ot = some vo) (h : c.parse tt = none) :
    merge_manifest_texts c bt ot tt =
      .error ⟨"<parse:theirs>", none, none, none⟩ := by
  unfold merge_manifest_texts
  rw [hb, ho, h]

theorem merge_manifest_texts_eq (c : TomlCodec) (bt ot tt : String)
    (vb vo vt : TomlValue) (hb : c.parse bt = some vb)
    (ho : c.parse ot = some vo) (ht : c.parse tt = some vt) :
    merge_manifest_texts c bt ot tt =
      mergeStage c (merge_value "" (some vb) (some vo) (some vt)) := by
  unfold merge_manifest_texts
  rw [hb, ho, ht]

theorem mergeStage_error (c : TomlCodec) (cf : MergeConflict) :
    mergeStage c (.error cf) = .error cf := rfl

theorem mergeStage_ok (c : TomlCodec) (v : Option TomlValue) :
    mergeStage c (.ok v) = serializeStage c v := rfl

theorem serializeStage_some (c : TomlCodec) (v : TomlValue) (s : String)
    (h : c.serializePretty v = some s) :
    serializeStage c (some v) = .ok (ensureTrailingNewline s) := by
  simp only [serializeStage]
  rw [h]

theorem serializeStage_fail (c : TomlCodec) (v : TomlValue)
    (h : c.serializePretty v = none) :
    serializeStage c (some v) =
      .error ⟨"<serialize>", none, none, none⟩ := by
  simp only [serializeStage]
  rw [h]

end TextLevelLemmas

section Claims

/-- C1: for every path and every triple of optional document values,
if ours and theirs are structurally equal in the program's sense — the
derived `PartialEq` the guard evaluates, under which both being absent
also counts — `merge_value` returns that common value, possibly
absent (it returns `ours`, exactly as the spec's agreement law states)
and never a conflict, regardless of base. -/
theorem claim_C1_agreement_short_circuit (path : String)
    (base ours theirs : Option TomlValue)
    (h : valueEqOpt ours theirs = true) :
    merge_value path base ours theirs = .ok ours :=
  mv_agree path base ours theirs h

theorem claim_C1_witness :
    merge_value "k" (some (.int 7)) (some (.str "x")) (some (.str "x"))
      = .ok (some (.str "x")) :=
  claim_C1_agreement_short_circuit "k" (some (.int 7)) (some (.str "x"))
    (some (.str "x")) (by decide)

/-- Counterexample to C2 as stated: at `ours = base = NaN`,
`theirs = 1.0`, ours equals base but every `PartialEq` guard fails
(`NaN != NaN`), so the merge conflicts instead of returning theirs;
and at the texts `base = ours = "a = -0.0"`, `theirs = "a = 0.0"`,
rule 1 fires (`-0.0 == 0.0`) and the merge returns ours' serialization
`"a = -0.0\n"`, not the canonical serialization of theirs. -/
theorem claim_C2_counterexample :
    merge_value "" (some (.float .nan)) (some (.float .nan))
        (some (.float (.finite 1)))
      = .error ⟨"", some (.float .nan), some (.float .nan),
          some (.float (.finite 1))⟩ ∧
    merge_manifest_texts demoCodecF "a = -0.0\n" "a = -0.0\n" "a = 0.0\n"
      = .ok "a = -0.0\n" := by
  constructor
  · exact mv_conflict "" (some (.float .nan)) (some (.float .nan))
      (some (.float (.finite 1))) (by decide) (by decide) (by decide) rfl
  · rw [merge_manifest_texts_eq demoCodecF
      "a = -0.0\n" "a = -0.0\n" "a = 0.0\n"
      (.table [("a", .float .negZero)]) (.table [("a", .float .negZero)])
      (.table [("a", .float (.finite 0))])
      (by decide) (by decide) (by decide)]
    rw [mv_agree "" (some (.table [("a", .float .negZero)]))
      (some (.table [("a", .float .negZero)]))
      (some (.table [("a", .float (.finite 0))])) (by decide)]
    rw [mergeStage_ok, serializeStage_some demoCodecF
      (.table [("a", .float .negZero)]) "a = -0.0" (by decide)]
    rw [show ensureTrailingNewline "a = -0.0" = "a = -0.0\n"
      from by decide]

/-- C2 amended (equality read as the program's `PartialEq`, which the
counterexample shows is the only reading the code satisfies: it is
irreflexive at NaN and identifies `-0.0` with `0.0`): with ours not
`PartialEq`-equal to theirs, if ours `PartialEq`-equals base the merge
returns theirs, and symmetrically; lifted to texts, if ours parses
`PartialEq`-equal to base and not `PartialEq`-equal to theirs, the
merge succeeds with the canonical (newline-padded) serialization of
theirs. -/
theorem claim_C2_one_side_unchanged :
    (∀ (path : String) (base ours theirs : Option TomlValue),
        valueEqOpt ours theirs = false → valueEqOpt ours base = true →
        merge_value path base ours theirs = .ok theirs) ∧
    (∀ (path : String) (base ours theirs : Option TomlValue),
        valueEqOpt ours theirs = false → valueEqOpt theirs base = true →
        merge_value path base ours theirs = .ok ours) ∧
    (∀ (c : TomlCodec) (base_text ours_text theirs_text : String)
        (vb vo vt : TomlValue) (s : String),
        c.parse base_text = some vb → c.parse ours_text = some vo →
        c.parse theirs_text = some vt → valueEq vo vb = true →
        valueEq vo vt = false → c.serializePretty vt = some s →
        merge_manifest_texts c base_text ours_text theirs_text =
          .ok (ensureTrailingNewline s)) := by
  refine ⟨fun path base ours theirs h1 h2 =>
      mv_ours_base path base ours theirs h1 h2,
    fun path base ours theirs h1 h3 => ?_,
    fun c base_text ours_text theirs_text vb vo vt s hb ho ht hvb hvt
      hs => ?_⟩
  · have hob : valueEqOpt ours base = false := by
      rcases h2 : valueEqOpt ours base with _ | _
      · rfl
      · have hot : valueEqOpt ours theirs = true :=
          valueEqOpt_trans h2 ((valueEqOpt_symm base theirs).trans h3)
        rw [h1] at hot
        cases hot
    exact mv_theirs_base path base ours theirs h1 hob h3
  · rw [merge_manifest_texts_eq c base_text ours_text theirs_text
      vb vo vt hb ho ht]
    rw [mv_ours_base "" (some vb) (some vo) (some vt) hvt hvb,
      mergeStage_ok, serializeStage_some c vt s hs]

theorem claim_C2_witness :
    merge_value "" (some (.int 1)) (some (.int 1)) (some (.int 2))
        = .ok (some (.int 2)) ∧
    merge_value "" (some (.int 1)) (some (.int 2)) (some (.int 1))
        = .ok (some (.int 2)) ∧
    merge_manifest_texts demoCodec "a = 1\n" "a = 1\n" "a = 2\n"
        = .ok "a = 2\n" := by
  refine ⟨claim_C2_one_side_unchanged.1 "" (some (.int 1))
      (some (.int 1)) (some (.int 2)) (by decide) (by decide),
    claim_C2_one_side_unchanged.2.1 "" (some (.int 1)) (some (.int 2))
      (some (.int 1)) (by decide) (by decide), ?_⟩
  have h := claim_C2_one_side_unchanged.2.2 demoCodec
    "a = 1\n" "a = 1\n" "a = 2\n"
    (.table [("a", .int 1)]) (.table [("a", .int 1)])
    (.table [("a", .int 2)]) "a = 2"
    (by decide) (by decide) (by decide) (by decide) (by decide)
    (by decide)
  rw [show ensureTrailingNewline "a = 2" = "a = 2\n" from by decide] at h
  exact h

/-- C3: when neither side equals the other nor base under the
program's equality (the derived `PartialEq` the guards evaluate) and
the two sides are not both tables, `merge_value` returns a conflict
carrying exactly the current dotted path and the three optional
values, and an absent side renders as the `<deleted>` marker in the
user-visible form. -/
theorem claim_C3_conflict_record (display : TomlValue → String)
    (path : String) (base ours theirs : Option TomlValue)
    (h1 : valueEqOpt ours theirs = false)
    (h2 : valueEqOpt ours base = false)
    (h3 : valueEqOpt theirs base = false)
    (hsh : bothTables ours theirs = false) :
    merge_value path base ours theirs =
        .error ⟨path, base, ours, theirs⟩ ∧
      (∀ side ∈ [base, ours, theirs], side = none →
        render_value display side = "<deleted>") :=
  ⟨mv_conflict path base ours theirs h1 h2 h3 hsh,
   fun _ _ hnone => by rw [hnone]; rfl⟩

theorem claim_C3_witness :
    merge_value "foo" none (some (.int 3))
        (some (.table [("a", .int 1)])) =
      .error ⟨"foo", none, some (.int 3),
        some (.table [("a", .int 1)])⟩ ∧
    render_value demoCodec.display none = "<deleted>" := by
  have h := claim_C3_conflict_record demoCodec.display "foo" none
    (some (.int 3)) (some (.table [("a", .int 1)]))
    (by decide) (by decide) (by decide) rfl
  exact ⟨h.1, h.2 none (by simp) rfl⟩

/-- C4: a failing merge reports exactly the one conflict of its
`Result`, and that conflict is the first rule-4 firing under ascending
lexicographic iteration of the key unions, with the first recursive
conflict propagated immediately — the shallowest conflicting
position reached. -/
theorem claim_C4_first_conflict_path (path : String)
    (base ours theirs : Option TomlValue) (cf : MergeConflict)
    (h : merge_value path base ours theirs = .error cf) :
    FirstConflictAt path base ours theirs cf :=
  merge_value_error_first path base ours theirs cf h

theorem claim_C4_witness :
    FirstConflictAt "" (some (.int 1)) (some (.int 2)) (some (.int 3))
      ⟨"", some (.int 1), some (.int 2), some (.int 3)⟩ :=
  claim_C4_first_conflict_path "" (some (.int 1)) (some (.int 2))
    (some (.int 3)) ⟨"", some (.int 1), some (.int 2), some (.int 3)⟩
    (mv_conflict "" (some (.int 1)) (some (.int 2)) (some (.int 3))
      (by decide) (by decide) (by decide) rfl)

/-- C5: when both sides are tables and rules 1 and 2 did not apply
(all three `PartialEq` guards failed), a successful merge returns
(regardless of base's shape, and even when empty) a table whose
entries are exactly the keys of
`keys(ours) ∪ keys(theirs) ∪ keys(base)` whose recursive merge at the
joined path returns a present value, each bound to that result, in
ascending key order. -/
theorem claim_C5_table_merge (path : String) (base : Option TomlValue)
    (ot tt : List (String × TomlValue)) (r : Option TomlValue)
    (hne : valueEqOpt (some (.table ot)) (some (.table tt)) = false)
    (hob : valueEqOpt (some (.table ot)) base = false)
    (htb : valueEqOpt (some (.table tt)) base = false)
    (h : merge_value path base (some (.table ot)) (some (.table tt))
      = .ok r) :
    ∃ out, r = some (.table out) ∧
      (out.map Prod.fst).Sorted (· < ·) ∧
      (∀ k v, (k, v) ∈ out ↔
        (k ∈ tableUnionKeys base ot tt ∧
          merge_value (join_path path k) (baseChild base k)
            (tableGet ot k) (tableGet tt k) = .ok (some v))) := by
  have hiff := (merge_value_tables_eq_ok_iff path base ot tt r
    hne hob htb).mp h
  refine ⟨(tableUnionKeys base ot tt).filterMap
    (childKeepAt path base ot tt), hiff.2, ?_, ?_⟩
  · exact List.Pairwise.sublist
      (map_fst_filterMap_childKeep path base ot tt _)
      (sorted_tableUnionKeys base ot tt)
  · intro k v
    rw [mem_filterMap_childKeep]
    exact Iff.rfl

theorem claim_C5_witness : ∃ out,
    (some (.table [("a", .int 1), ("b", .int 2), ("c", .int 3)]) :
        Option TomlValue) = some (.table out) ∧
      (out.map Prod.fst).Sorted (· < ·) ∧
      (∀ k v, (k, v) ∈ out ↔
        (k ∈ tableUnionKeys (some (.table [("a", .int 1)]))
            [("a", .int 1), ("b", .int 2)] [("a", .int 1), ("c", .int 3)] ∧
          merge_value (join_path "" k)
            (baseChild (some (.table [("a", .int 1)])) k)
            (tableGet [("a", .int 1), ("b", .int 2)] k)
            (tableGet [("a", .int 1), ("c", .int 3)] k)
            = .ok (some v))) := by
  apply claim_C5_table_merge "" (some (.table [("a", .int 1)]))
    [("a", .int 1), ("b", .int 2)] [("a", .int 1), ("c", .int 3)]
    (some (.table [("a", .int 1), ("b", .int 2), ("c", .int 3)]))
    (by decide) (by decide) (by decide)
  rw [mv_tables "" (some (.table [("a", .int 1)]))
    (some (.table [("a", .int 1), ("b", .int 2)]))
    (some (.table [("a", .int 1), ("c", .int 3)]))
    (by decide) (by decide) (by decide) rfl rfl]
  rw [show tableUnionKeys (some (.table [("a", .int 1)]))
      [("a", .int 1), ("b", .int 2)] [("a", .int 1), ("c", .int 3)]
      = ["a", "b", "c"] from by decide]
  have hA : merge_value (join_path "" "a")
      (baseChild (some (.table [("a", .int 1)])) "a")
      (tableGet [("a", .int 1), ("b", .int 2)] "a")
      (tableGet [("a", .int 1), ("c", .int 3)] "a")
      = .ok (some (.int 1)) := by
    rw [mv_agree _ _ _ _ (by decide)]
    decide
  have hB : merge_value (join_path "" "b")
      (baseChild (some (.table [("a", .int 1)])) "b")
      (tableGet [("a", .int 1), ("b", .int 2)] "b")
      (tableGet [("a", .int 1), ("c", .int 3)] "b")
      = .ok (some (.int 2)) := by
    rw [mv_theirs_base _ _ _ _ (by decide) (by decide) (by decide)]
    decide
  have hC : merge_value (join_path "" "c")
      (baseChild (some (.table [("a", .int 1)])) "c")
      (tableGet [("a", .int 1), ("b", .int 2)] "c")
      (tableGet [("a", .int 1), ("c", .int 3)] "c")
      = .ok (some (.int 3)) := by
    rw [mv_ours_base _ _ _ _ (by decide) (by decide)]
    decide
  rw [merge_table_cons_some "" (some (.table [("a", .int 1)]))
      [("a", .int 1), ("b", .int 2)] [("a", .int 1), ("c", .int 3)] hA,
    merge_table_cons_some "" (some (.table [("a", .int 1)]))
      [("a", .int 1), ("b", .int 2)] [("a", .int 1), ("c", .int 3)] hB,
    merge_table_cons_some "" (some (.table [("a", .int 1)]))
      [("a", .int 1), ("b", .int 2)] [("a", .int 1), ("c", .int 3)] hC,
    merge_table_nil]
  decide

/-- C6: a parse failure on any side short-circuits the merge into a
conflict whose path is the sentinel for the failing side
(`<parse:base>`, `<parse:ours>`, `<parse:theirs>` — checked in that
order) and whose three value slots are all absent; the result is
exactly this conflict, so no merge of the remaining documents is
attempted. -/
theorem claim_C6_parse_sentinels :
    (∀ (c : TomlCodec) (bt ot tt : String), c.parse bt = none →
      merge_manifest_texts c bt ot tt =
        .error ⟨"<parse:base>", none, none, none⟩) ∧
    (∀ (c : TomlCodec) (bt ot tt : String) (vb : TomlValue),
      c.parse bt = some vb → c.parse ot = none →
      merge_manifest_texts c bt ot tt =
        .error ⟨"<parse:ours>", none, none, none⟩) ∧
    (∀ (c : TomlCodec) (bt ot tt : String) (vb vo : TomlValue),
      c.parse bt = some vb → c.parse ot = some vo → c.parse tt = none →
      merge_manifest_texts c bt ot tt =
        .error ⟨"<parse:theirs>", none, none, none⟩) :=
  ⟨mmt_base_none, mmt_ours_none, mmt_theirs_none⟩

theorem claim_C6_witness :
    merge_manifest_texts demoCodec "?" "a = 1\n" "a = 1\n"
        = .error ⟨"<parse:base>", none, none, none⟩ ∧
    merge_manifest_texts demoCodec "a = 1\n" "?" "a = 1\n"
        = .error ⟨"<parse:ours>", none, none, none⟩ ∧
    merge_manifest_texts demoCodec "a = 1\n" "a = 1\n" "?"
        = .error ⟨"<parse:theirs>", none, none, none⟩ :=
  ⟨claim_C6_parse_sentinels.1 demoCodec "?" "a = 1\n" "a = 1\n"
      (by decide),
   claim_C6_parse_sentinels.2.1 demoCodec "a = 1\n" "?" "a = 1\n"
      (.table [("a", .int 1)]) (by decide) (by decide),
   claim_C6_parse_sentinels.2.2 demoCodec "a = 1\n" "a = 1\n" "?"
      (.table [("a", .int 1)]) (.table [("a", .int 1)])
      (by decide) (by decide) (by decide)⟩

/-- Counterexample to C7 as stated: with base `a = 1.0`, ours
`a = -0.0`, theirs `a = 0.0`, both orders of the merge succeed via the
agreement rule (`-0.0 == 0.0`) but return `ours.cloned()`, so the two
merged texts differ (`a = -0.0` versus `a = 0.0`) — the sides are not
commutative up to byte equality. -/
theorem claim_C7_counterexample :
    merge_manifest_texts demoCodecF "a = 1.0\n" "a = -0.0\n" "a = 0.0\n"
      = .ok "a = -0.0\n" ∧
    merge_manifest_texts demoCodecF "a = 1.0\n" "a = 0.0\n" "a = -0.0\n"
      = .ok "a = 0.0\n" := by
  constructor
  · rw [merge_manifest_texts_eq demoCodecF
      "a = 1.0\n" "a = -0.0\n" "a = 0.0\n"
      (.table [("a", .float (.finite 1))])
      (.table [("a", .float .negZero)])
      (.table [("a", .float (.finite 0))])
      (by decide) (by decide) (by decide)]
    rw [mv_agree "" (some (.table [("a", .float (.finite 1))]))
      (some (.table [("a", .float .negZero)]))
      (some (.table [("a", .float (.finite 0))])) (by decide)]
    rw [mergeStage_ok, serializeStage_some demoCodecF
      (.table [("a", .float .negZero)]) "a = -0.0" (by decide)]
    rw [show ensureTrailingNewline "a = -0.0" = "a = -0.0\n"
      from by decide]
  · rw [merge_manifest_texts_eq demoCodecF
      "a = 1.0\n" "a = 0.0\n" "a = -0.0\n"
      (.table [("a", .float (.finite 1))])
      (.table [("a", .float (.finite 0))])
      (.table [("a", .float .negZero)])
      (by decide) (by decide) (by decide)]
    rw [mv_agree "" (some (.table [("a", .float (.finite 1))]))
      (some (.table [("a", .float (.finite 0))]))
      (some (.table [("a", .float .negZero)])) (by decide)]
    rw [mergeStage_ok, serializeStage_some demoCodecF
      (.table [("a", .float (.finite 0))]) "a = 0.0" (by decide)]
    rw [show ensureTrailingNewline "a = 0.0" = "a = 0.0\n"
      from by decide]

/-- C7 amended (the counterexample shows success values agree only up
to IEEE `==` at floats, not byte-for-byte): exchanging ours and theirs
makes both merges fail together — with equal paths, equal base slots
and exchanged ours/theirs slots — or succeed together with results
equal up to IEEE `==` at floats; and a root semantic conflict lifts to
the two texts' merges failing with exactly swapped conflicts. -/
theorem claim_C7_side_commutativity :
    (∀ (path : String) (base ours theirs : Option TomlValue),
      SwapRel (merge_value path base ours theirs)
        (merge_value path base theirs ours)) ∧
    (∀ (c : TomlCodec) (bt ot tt : String) (vb vo vt : TomlValue)
        (cf : MergeConflict),
      c.parse bt = some vb → c.parse ot = some vo →
      c.parse tt = some vt →
      merge_value "" (some vb) (some vo) (some vt) = .error cf →
      merge_manifest_texts c bt ot tt = .error cf ∧
      merge_manifest_texts c bt tt ot =
        .error (swapConflict cf)) := by
  refine ⟨merge_value_swaprel, ?_⟩
  intro c bt ot tt vb vo vt cf hb ho ht herr
  constructor
  · rw [merge_manifest_texts_eq c bt ot tt vb vo vt hb ho ht, herr,
      mergeStage_error]
  · rw [merge_manifest_texts_eq c bt tt ot vb vt vo hb ht ho]
    have hsw := merge_value_swaprel "" (some vb) (some vo) (some vt)
    rw [herr] at hsw
    rcases hr : merge_value "" (some vb) (some vt) (some vo)
      with c2 | v2 <;> rw [hr] at hsw
    · rw [mergeStage_error,
        show c2 = swapConflict cf from hsw]
    · exact (hsw : False).elim

theorem claim_C7_witness :
    SwapRel
      (merge_value "" (some (.int 1)) (some (.int 2)) (some (.int 3)))
      (merge_value "" (some (.int 1)) (some (.int 3))
        (some (.int 2))) ∧
    merge_manifest_texts demoCodec "a = 1\n" "a = 2\n" "a = 3\n"
      = .error ⟨"a", some (.int 1), some (.int 2), some (.int 3)⟩ ∧
    merge_manifest_texts demoCodec "a = 1\n" "a = 3\n" "a = 2\n"
      = .error (swapConflict
          ⟨"a", some (.int 1), some (.int 2), some (.int 3)⟩) := by
  have hroot : merge_value "" (some (.table [("a", .int 1)]))
      (some (.table [("a", .int 2)])) (some (.table [("a", .int 3)]))
      = .error ⟨"a", some (.int 1), some (.int 2), some (.int 3)⟩ := by
    rw [mv_tables "" (some (.table [("a", .int 1)]))
      (some (.table [("a", .int 2)])) (some (.table [("a", .int 3)]))
      (by decide) (by decide) (by decide) rfl rfl]
    rw [show tableUnionKeys (some (.table [("a", .int 1)]))
        [("a", .int 2)] [("a", .int 3)] = ["a"] from by decide]
    have hchild : merge_value (join_path "" "a")
        (baseChild (some (.table [("a", .int 1)])) "a")
        (tableGet [("a", .int 2)] "a") (tableGet [("a", .int 3)] "a")
        = .error ⟨"a", some (.int 1), some (.int 2), some (.int 3)⟩ := by
      rw [mv_conflict _ _ _ _ (by decide) (by decide) (by decide)
        (by decide)]
      decide
    rw [merge_table_cons_error "" (some (.table [("a", .int 1)]))
      [("a", .int 2)] [("a", .int 3)] hchild]
  have htext := claim_C7_side_commutativity.2 demoCodec
    "a = 1\n" "a = 2\n" "a = 3\n" (.table [("a", .int 1)])
    (.table [("a", .int 2)]) (.table [("a", .int 3)])
    ⟨"a", some (.int 1), some (.int 2), some (.int 3)⟩
    (by decide) (by decide) (by decide) hroot
  exact ⟨claim_C7_side_commutativity.1 "" (some (.int 1))
    (some (.int 2)) (some (.int 3)), htext.1, htext.2⟩

/-- Counterexample to C8 as stated: `x = "a = nan"` is a parseable
document, but `NaN != NaN` under the derived `PartialEq`, so every
guard fails at key `a` and `merge(x, x, x)` reports a conflict at path
`a` instead of succeeding. -/
theorem claim_C8_counterexample :
    merge_manifest_texts demoCodecF "a = nan\n" "a = nan\n" "a = nan\n"
      = .error ⟨"a", some (.float .nan), some (.float .nan),
          some (.float .nan)⟩ := by
  rw [merge_manifest_texts_eq demoCodecF
    "a = nan\n" "a = nan\n" "a = nan\n"
    (.table [("a", .float .nan)]) (.table [("a", .float .nan)])
    (.table [("a", .float .nan)])
    (by decide) (by decide) (by decide)]
  rw [mv_tables "" (some (.table [("a", .float .nan)]))
    (some (.table [("a", .float .nan)]))
    (some (.table [("a", .float .nan)]))
    (by decide) (by decide) (by decide) rfl rfl]
  rw [show tableUnionKeys (some (.table [("a", .float .nan)]))
      [("a", .float .nan)] [("a", .float .nan)] = ["a"] from by decide]
  have hchild : merge_value (join_path "" "a")
      (baseChild (some (.table [("a", .float .nan)])) "a")
      (tableGet [("a", .float .nan)] "a")
      (tableGet [("a", .float .nan)] "a")
      = .error ⟨"a", some (.float .nan), some (.float .nan),
          some (.float .nan)⟩ := by
    rw [mv_conflict _ _ _ _ (by decide) (by decide) (by decide)
      (by decide)]
    decide
  rw [merge_table_cons_error "" (some (.table [("a", .float .nan)]))
    [("a", .float .nan)] [("a", .float .nan)] hchild]
  rw [mergeStage_error]

/-- C8 amended (the counterexample forces a NaN-freeness condition,
NaN being the one value the program's equality is irreflexive at):
merging any parseable, NaN-free document with itself on all three
sides succeeds and returns the document's canonical pretty
re-serialization, padded to a single trailing newline. -/
theorem claim_C8_idempotence (c : TomlCodec) (x : String)
    (v : TomlValue) (s : String) (hp : c.parse x = some v)
    (hnf : nanFree v = true) (hs : c.serializePretty v = some s) :
    merge_manifest_texts c x x x = .ok (ensureTrailingNewline s) := by
  rw [merge_manifest_texts_eq c x x x v v v hp hp hp,
    mv_agree "" (some v) (some v) (some v)
      (valueEq_refl_of_nanFree hnf),
    mergeStage_ok, serializeStage_some c v s hs]

theorem claim_C8_witness :
    merge_manifest_texts demoCodec "a = 1\n" "a = 1\n" "a = 1\n"
      = .ok "a = 1\n" := by
  have h := claim_C8_idempotence demoCodec "a = 1\n"
    (.table [("a", .int 1)]) "a = 1" (by decide) (by decide) (by decide)
  rw [show ensureTrailingNewline "a = 1" = "a = 1\n" from by decide] at h
  exact h

/-- C9: whenever the text-level merge succeeds (given that the pretty
serializer never emits more than one trailing newline), the returned
merged text ends in exactly one newline character — not zero and not
more. -/
theorem claim_C9_single_trailing_newline (c : TomlCodec)
    (hser : ∀ v s, c.serializePretty v = some s →
      trailingNewlineCount s ≤ 1)
    (bt ot tt out : String)
    (h : merge_manifest_texts c bt ot tt = .ok out) :
    trailingNewlineCount out = 1 := by
  rcases hb : c.parse bt with _ | vb
  · rw [mmt_base_none c bt ot tt hb] at h
    cases h
  · rcases ho : c.parse ot with _ | vo
    · rw [mmt_ours_none c bt ot tt vb hb ho] at h
      cases h
    · rcases ht : c.parse tt with _ | vt
      · rw [mmt_theirs_none c bt ot tt vb vo hb ho ht] at h
        cases h
      · rw [merge_manifest_texts_eq c bt ot tt vb vo vt hb ho ht] at h
        rcases hmv : merge_value "" (some vb) (some vo) (some vt)
          with cf | r
        · rw [hmv, mergeStage_error] at h
          cases h
        · rw [hmv, mergeStage_ok] at h
          rcases r with _ | merged
          · cases h
          · rcases hs : c.serializePretty merged with _ | s
            · rw [serializeStage_fail c merged hs] at h
              cases h
            · rw [serializeStage_some c merged s hs] at h
              have hout : ensureTrailingNewline s = out :=
                Except.ok.inj h
              rw [← hout]
              exact trailingNewlineCount_ensure s (hser merged s hs)

theorem claim_C9_witness :
    (∀ v s, demoCodec.serializePretty v = some s →
      trailingNewlineCount s ≤ 1) ∧
    trailingNewlineCount "a = 1\n" = 1 := by
  have hser : ∀ v s, demoCodec.serializePretty v = some s →
      trailingNewlineCount s ≤ 1 := by
    intro v s h
    have hd : demoCodec.serializePretty v =
        (if v = .table [("a", .int 1)] then some "a = 1"
         else if v = .table [("a", .int 2)] then some "a = 2"
         else if v = .table [("a", .int 3)] then some "a = 3"
         else none) := rfl
    rw [hd] at h
    by_cases h1 : v = .table [("a", .int 1)]
    · rw [if_pos h1] at h
      cases h
      decide
    · rw [if_neg h1] at h
      by_cases h2 : v = .table [("a", .int 2)]
      · rw [if_pos h2] at h
        cases h
        decide
      · rw [if_neg h2] at h
        by_cases h3 : v = .table [("a", .int 3)]
        · rw [if_pos h3] at h
          cases h
          decide
        · rw [if_neg h3] at h
          cases h
  refine ⟨hser, ?_⟩
  apply claim_C9_single_trailing_newline demoCodec hser
    "a = 1\n" "a = 1\n" "a = 1\n"
  rw [merge_manifest_texts_eq demoCodec "a = 1\n" "a = 1\n" "a = 1\n"
    (.table [("a", .int 1)]) (.table [("a", .int 1)])
    (.table [("a", .int 1)]) (by decide) (by decide) (by decide),
    mv_agree "" (some (.table [("a", .int 1)]))
      (some (.table [("a", .int 1)])) (some (.table [("a", .int 1)]))
      (by decide), mergeStage_ok,
    serializeStage_some demoCodec (.table [("a", .int 1)]) "a = 1"
      (by decide)]
  rw [show ensureTrailingNewline "a = 1" = "a = 1\n" from by decide]

/-- C10: with all three sides present, `merge_value` never returns an
absent result — it returns a present value or a conflict — so the
`.expect` on the root merge (whose three parsed roots are present)
cannot panic. -/
theorem claim_C10_root_merge_total (path : String)
    (b o t : TomlValue) :
    (∃ v, merge_value path (some b) (some o) (some t) = .ok (some v)) ∨
    (∃ c, merge_value path (some b) (some o) (some t) = .error c) :=
  merge_value_all_some path b o t

end Claims

end CargoMergeAssist
